import Mathlib

/-! AVL tree insertion (`avlTree.c`)

A shallow embedding of the AVL tree of `avlTree.c`: the node structure, the
utilities `height`, `max`, `newNode`, `getBalance`, the two rotations, the
recursive `insert` and the traversal `preOrder`.

* A `struct node *` is a value of `Node α`; the NULL pointer is `Node.null`.
  The tree is a strict tree (no sharing), so the pointer writes of the source
  are modelled by rebuilding the node that is written to.
* The key type of the source is `float`; here it is any linearly ordered type
  `α` (the comparisons `<` and `>` of the source are those of `α`).
* The cached height is a C `int`, here an `Int`.  In a tree that `insert`
  builds it never exceeds the number of nodes, so `height`, the rotations
  `rightRotate` and `leftRotate` and `insert` compute the heights in `Int`
  without wrap-around.  For the properties of a rotation on an arbitrary node,
  whose cached heights can be any `int`, the rotations are also given with the
  32-bit arithmetic of the source, as `rightRotateInt` and `leftRotateInt`.
* Reading a field through a NULL pointer has no defined result: every function
  that can do so returns an `Option`, and `none` stands for such a read.
-/

namespace AvlTree

/-- An AVL tree node (`struct node`), or the NULL pointer. -/
inductive Node (α : Type) where
  | null : Node α
  | mk (key : α) (left : Node α) (right : Node α) (height : Int) : Node α
  deriving DecidableEq, Repr

variable {α : Type}

/-- The function `height`: the cached height of `N`, and 0 for NULL. -/
def height : Node α → Int
  | .null => 0
  | .mk _ _ _ h => h

/-- The function `max`: `(a > b) ? a : b`. -/
def max (a b : Int) : Int :=
  if a > b then a else b

/-- The function `newNode`: a leaf with the given key and height 1. -/
def newNode (key : α) : Node α :=
  .mk key .null .null 1

/-- The function `rightRotate`.  It reads `y->left` and `x->right` where
`x = y->left`, so it has no result when `y` or `y->left` is NULL.  The two
heights are computed in `Int`: this is the computation of the source as long
as `max(...) + 1` stays within the type `int`; see `rightRotateInt`. -/
def rightRotate : Node α → Option (Node α)
  | .mk ky (.mk kx xl T2 _) yr _ =>
    -- x->right = y; y->left = T2; then y's height, then x's height
    let y := Node.mk ky T2 yr (max (height T2) (height yr) + 1)
    some (.mk kx xl y (max (height xl) (height y) + 1))
  | _ => none

/-- The function `leftRotate`.  It reads `x->right` and `y->left` where
`y = x->right`, so it has no result when `x` or `x->right` is NULL.  The two
heights are computed in `Int`: this is the computation of the source as long
as `max(...) + 1` stays within the type `int`; see `leftRotateInt`. -/
def leftRotate : Node α → Option (Node α)
  | .mk kx xl (.mk ky T2 yr _) _ =>
    -- y->left = x; x->right = T2; then x's height, then y's height
    let x := Node.mk kx xl T2 (max (height xl) (height T2) + 1)
    some (.mk ky x yr (max (height x) (height yr) + 1))
  | _ => none

/-- The largest value of the type `int` (32 bits). -/
def INT_MAX : Int := 2147483647

/-- The smallest value of the type `int` (32 bits). -/
def INT_MIN : Int := -2147483648

/-- The value that a 32-bit two's complement `int` holds for the integer `a`:
`a` itself when `INT_MIN <= a <= INT_MAX`, and `INT_MAX + 1` wraps to
`INT_MIN`. -/
def wrapInt (a : Int) : Int :=
  (a + 2147483648) % 4294967296 - 2147483648

/-- The function `rightRotate` with the arithmetic of the type `int`: each of
the two assignments `... = max(...) + 1` stores the wrapped sum. -/
def rightRotateInt : Node α → Option (Node α)
  | .mk ky (.mk kx xl T2 _) yr _ =>
    -- x->right = y; y->left = T2; then y's height, then x's height
    let y := Node.mk ky T2 yr (wrapInt (max (height T2) (height yr) + 1))
    some (.mk kx xl y (wrapInt (max (height xl) (height y) + 1)))
  | _ => none

/-- The function `leftRotate` with the arithmetic of the type `int`: each of
the two assignments `... = max(...) + 1` stores the wrapped sum. -/
def leftRotateInt : Node α → Option (Node α)
  | .mk kx xl (.mk ky T2 yr _) _ =>
    -- y->left = x; x->right = T2; then x's height, then y's height
    let x := Node.mk kx xl T2 (wrapInt (max (height xl) (height T2) + 1))
    some (.mk ky x yr (wrapInt (max (height x) (height yr) + 1)))
  | _ => none

/-- The function `getBalance`: 0 for NULL, else
`height(N->left) - height(N->right)`. -/
def getBalance : Node α → Int
  | .null => 0
  | .mk _ l r _ => height l - height r

/-- The read `child->key` of the guards of `insert`; no result on NULL. -/
def keyOf : Node α → Option α
  | .null => none
  | .mk k _ _ _ => some k

/-- The function `preOrder`: the `(key, height)` pairs in the order in which
they are printed (node, left subtree, right subtree). -/
def preOrder : Node α → List (α × Int)
  | .null => []
  | .mk k l r h => (k, h) :: (preOrder l ++ preOrder r)

section Insertion

variable [LinearOrder α]

/-- Guard of the left-left case: `balance > 1 && key < node->left->key`.
The key of the left child is read only when `balance > 1`. -/
def leftLeftGuard (balance : Int) (left : Node α) (key : α) : Option Bool :=
  if balance > 1 then (keyOf left).map (fun lk => decide (key < lk)) else some false

/-- Guard of the right-right case: `balance < -1 && key > node->right->key`. -/
def rightRightGuard (balance : Int) (right : Node α) (key : α) : Option Bool :=
  if balance < -1 then (keyOf right).map (fun rk => decide (key > rk)) else some false

/-- Guard of the left-right case: `balance > 1 && key > node->left->key`. -/
def leftRightGuard (balance : Int) (left : Node α) (key : α) : Option Bool :=
  if balance > 1 then (keyOf left).map (fun lk => decide (key > lk)) else some false

/-- Guard of the right-left case: `balance < -1 && key < node->right->key`. -/
def rightLeftGuard (balance : Int) (right : Node α) (key : α) : Option Bool :=
  if balance < -1 then (keyOf right).map (fun rk => decide (key < rk)) else some false

/-- Steps 2 to 4 of `insert`, run on the node `k, l, r` once the recursive call
has re-attached the child: the height update, the balance factor, and the
four cases in the order of the source. -/
def rebalance (k : α) (l r : Node α) (key : α) : Option (Node α) :=
  -- node->height = max(height(node->left), height(node->right)) + 1
  let node := Node.mk k l r (max (height l) (height r) + 1)
  let balance := getBalance node
  match leftLeftGuard balance l key with
  | none => none
  | some true => rightRotate node
  | some false =>
    match rightRightGuard balance r key with
    | none => none
    | some true => leftRotate node
    | some false =>
      match leftRightGuard balance l key with
      | none => none
      | some true =>
        match leftRotate l with
        | none => none
        | some l1 => rightRotate (.mk k l1 r (max (height l) (height r) + 1))
      | some false =>
        match rightLeftGuard balance r key with
        | none => none
        | some true =>
          match rightRotate r with
          | none => none
          | some r1 => leftRotate (.mk k l r1 (max (height l) (height r) + 1))
        | some false => some node

/-- The function `insert`. -/
def insert : Node α → α → Option (Node α)
  | .null, key => some (newNode key)
  | .mk k l r _, key =>
    if key < k then
      match insert l key with
      | none => none
      | some l1 => rebalance k l1 r key
    else
      match insert r key with
      | none => none
      | some r1 => rebalance k l r1 key

/-- The loop of `popStack`: the keys are inserted one at a time, each
insertion replacing the root by the result of `insert`. -/
def insertAll : Node α → List α → Option (Node α)
  | root, [] => some root
  | root, key :: rest =>
    match insert root key with
    | none => none
    | some root1 => insertAll root1 rest

end Insertion

/-! ## The invariants of the data model -/

/-- The keys of a tree, in the order in which `preOrder` visits them. -/
def keys (t : Node α) : List α :=
  (preOrder t).map Prod.fst

/-- Balance: `|height(left) - height(right)| <= 1` at every node. -/
def Balanced : Node α → Prop
  | .null => True
  | .mk _ l r _ => |height l - height r| ≤ 1 ∧ Balanced l ∧ Balanced r

/-- Height correctness: the cached height of every node is
`1 + max(height(left), height(right))`. -/
def HeightOK : Node α → Prop
  | .null => True
  | .mk _ l r h => h = 1 + Max.max (height l) (height r) ∧ HeightOK l ∧ HeightOK r

/-- BST ordering of the data model: at every node the keys of the left
subtree are `<` the key of the node and the keys of the right subtree are
`>=` it. -/
def IsBST [LinearOrder α] : Node α → Prop
  | .null => True
  | .mk k l r _ =>
    (∀ x ∈ keys l, x < k) ∧ (∀ x ∈ keys r, k ≤ x) ∧ IsBST l ∧ IsBST r

/-- The ordering with ties allowed on both sides: at every node the keys of
the left subtree are `<=` the key of the node and the keys of the right
subtree are `>=` it. -/
def WeakBST [LinearOrder α] : Node α → Prop
  | .null => True
  | .mk k l r _ =>
    (∀ x ∈ keys l, x ≤ k) ∧ (∀ x ∈ keys r, k ≤ x) ∧ WeakBST l ∧ WeakBST r

/-- The ordering without ties: at every node the keys of the left subtree
are `<` the key of the node and the keys of the right subtree are `>` it. -/
def StrictBST [LinearOrder α] : Node α → Prop
  | .null => True
  | .mk k l r _ =>
    (∀ x ∈ keys l, x < k) ∧ (∀ x ∈ keys r, k < x) ∧ StrictBST l ∧ StrictBST r

/-- The keys of a tree in in-order (left subtree, node, right subtree). -/
def inOrder : Node α → List α
  | .null => []
  | .mk k l r _ => inOrder l ++ k :: inOrder r

section Counting

variable [LinearOrder α]

/-- Whether one of the four cases of `insert` fires on the node `k, l, r`
after the height update: one of the four guards is true. -/
def caseFires (k : α) (l r : Node α) (key : α) : Bool :=
  let balance := getBalance (Node.mk k l r (max (height l) (height r) + 1))
  leftLeftGuard balance l key == some true ||
    rightRightGuard balance r key == some true ||
    leftRightGuard balance l key == some true ||
    rightLeftGuard balance r key == some true

/-- The function `insert` together with the number of nodes of the insertion
path at which one of the four cases fires. -/
def insertCount : Node α → α → Option (Node α × Nat)
  | .null, key => some (newNode key, 0)
  | .mk k l r _, key =>
    if key < k then
      match insertCount l key with
      | none => none
      | some (l1, n) =>
        match rebalance k l1 r key with
        | none => none
        | some t1 => some (t1, if caseFires k l1 r key then n + 1 else n)
    else
      match insertCount r key with
      | none => none
      | some (r1, n) =>
        match rebalance k l r1 key with
        | none => none
        | some t1 => some (t1, if caseFires k l r1 key then n + 1 else n)

end Counting

instance decBalanced : (t : Node α) → Decidable (Balanced t)
  | .null => isTrue trivial
  | .mk _ l r _ =>
    have := decBalanced l
    have := decBalanced r
    inferInstanceAs (Decidable (_ ∧ _ ∧ _))

instance decHeightOK : (t : Node α) → Decidable (HeightOK t)
  | .null => isTrue trivial
  | .mk _ l r _ =>
    have := decHeightOK l
    have := decHeightOK r
    inferInstanceAs (Decidable (_ ∧ _ ∧ _))

instance decIsBST [LinearOrder α] : (t : Node α) → Decidable (IsBST t)
  | .null => isTrue trivial
  | .mk _ l r _ =>
    have := decIsBST l
    have := decIsBST r
    inferInstanceAs (Decidable (_ ∧ _ ∧ _ ∧ _))

instance decWeakBST [LinearOrder α] : (t : Node α) → Decidable (WeakBST t)
  | .null => isTrue trivial
  | .mk _ l r _ =>
    have := decWeakBST l
    have := decWeakBST r
    inferInstanceAs (Decidable (_ ∧ _ ∧ _ ∧ _))

instance decStrictBST [LinearOrder α] : (t : Node α) → Decidable (StrictBST t)
  | .null => isTrue trivial
  | .mk _ l r _ =>
    have := decStrictBST l
    have := decStrictBST r
    inferInstanceAs (Decidable (_ ∧ _ ∧ _ ∧ _))

end AvlTree

namespace AvlTree

variable {α : Type}

/-! ## Basic facts -/

theorem max_eq (a b : Int) : max a b = Max.max a b := by
  unfold max
  omega

@[simp] theorem keys_null : keys (Node.null : Node α) = [] := rfl

@[simp] theorem keys_mk (k : α) (l r : Node α) (h : Int) :
    keys (Node.mk k l r h) = k :: (keys l ++ keys r) := by
  simp [keys, preOrder]

theorem height_null : height (Node.null : Node α) = 0 := rfl

theorem height_mk (k : α) (l r : Node α) (c : Int) : height (Node.mk k l r c) = c := rfl

theorem length_preOrder (t : Node α) : (preOrder t).length = (keys t).length := by
  simp [keys]

theorem heightOK_nonneg (t : Node α) (h : HeightOK t) : 0 ≤ height t := by
  induction t with
  | null => simp [height]
  | mk k l r c ihl ihr =>
    obtain ⟨hc, hl, hr⟩ := h
    have := ihl hl
    simp only [height]
    omega

theorem balanced_root {k : α} {l r : Node α} {c : Int} (h : Balanced (.mk k l r c)) :
    height l ≤ height r + 1 ∧ height r ≤ height l + 1 := by
  have h1 := h.1
  rw [abs_le] at h1
  omega

theorem balanced_mk {k : α} {l r : Node α} {c : Int} (h1 : height l ≤ height r + 1)
    (h2 : height r ≤ height l + 1) (hl : Balanced l) (hr : Balanced r) :
    Balanced (.mk k l r c) := by
  refine ⟨?_, hl, hr⟩
  rw [abs_le]
  omega

end AvlTree

namespace AvlTree

variable {α : Type}

/-! ## The rotations on a node whose relevant child is present -/

theorem rightRotate_mk (ky kx : α) (a b c : Node α) (hx hy : Int) :
    rightRotate (.mk ky (.mk kx a b hx) c hy) =
      some (.mk kx a (.mk ky b c (max (height b) (height c) + 1))
        (max (height a) (max (height b) (height c) + 1) + 1)) := rfl

theorem leftRotate_mk (kx ky : α) (a b c : Node α) (hx hy : Int) :
    leftRotate (.mk kx a (.mk ky b c hy) hx) =
      some (.mk ky (.mk kx a b (max (height a) (height b) + 1)) c
        (max (max (height a) (height b) + 1) (height c) + 1)) := rfl

theorem rightRotate_eq_some {t t1 : Node α} (h : rightRotate t = some t1) :
    ∃ ky kx a b c hx hy, t = .mk ky (.mk kx a b hx) c hy ∧
      t1 = .mk kx a (.mk ky b c (max (height b) (height c) + 1))
        (max (height a) (max (height b) (height c) + 1) + 1) := by
  cases t with
  | null => simp [rightRotate] at h
  | mk ky l c hy =>
    cases l with
    | null => simp [rightRotate] at h
    | mk kx a b hx =>
      rw [rightRotate_mk] at h
      exact ⟨ky, kx, a, b, c, hx, hy, rfl, (Option.some.inj h).symm⟩

theorem leftRotate_eq_some {t t1 : Node α} (h : leftRotate t = some t1) :
    ∃ kx ky a b c hx hy, t = .mk kx a (.mk ky b c hy) hx ∧
      t1 = .mk ky (.mk kx a b (max (height a) (height b) + 1)) c
        (max (max (height a) (height b) + 1) (height c) + 1) := by
  cases t with
  | null => simp [leftRotate] at h
  | mk kx a r hx =>
    cases r with
    | null => simp [leftRotate] at h
    | mk ky b c hy =>
      rw [leftRotate_mk] at h
      exact ⟨kx, ky, a, b, c, hx, hy, rfl, (Option.some.inj h).symm⟩

section Order

variable [LinearOrder α]

/-! ## The cases of `rebalance` -/

/-- Whatever `rebalance` returns is the updated node itself, one rotation of
it, or the double rotation of the left-right or of the right-left case. -/
theorem rebalance_cases {k : α} {l r : Node α} {key : α} {t1 : Node α}
    (h : rebalance k l r key = some t1) :
    t1 = .mk k l r (max (height l) (height r) + 1) ∨
    rightRotate (.mk k l r (max (height l) (height r) + 1)) = some t1 ∨
    leftRotate (.mk k l r (max (height l) (height r) + 1)) = some t1 ∨
    (∃ l1, leftRotate l = some l1 ∧
      rightRotate (.mk k l1 r (max (height l) (height r) + 1)) = some t1) ∨
    (∃ r1, rightRotate r = some r1 ∧
      leftRotate (.mk k l r1 (max (height l) (height r) + 1)) = some t1) := by
  unfold rebalance at h
  simp only at h
  split at h
  · exact absurd h (by simp)
  · exact Or.inr (Or.inl h)
  · split at h
    · exact absurd h (by simp)
    · exact Or.inr (Or.inr (Or.inl h))
    · split at h
      · exact absurd h (by simp)
      · split at h
        · exact absurd h (by simp)
        · rename_i l1 hl1
          exact Or.inr (Or.inr (Or.inr (Or.inl ⟨l1, hl1, h⟩)))
      · split at h
        · exact absurd h (by simp)
        · split at h
          · exact absurd h (by simp)
          · rename_i r1 hr1
            exact Or.inr (Or.inr (Or.inr (Or.inr ⟨r1, hr1, h⟩)))
        · exact Or.inl (Option.some.inj h).symm

/-- No case fires when the balance factor is within `[-1, 1]`. -/
theorem rebalance_balanced (k : α) (l r : Node α) (key : α)
    (h1 : height l - height r ≤ 1) (h2 : -1 ≤ height l - height r) :
    rebalance k l r key = some (.mk k l r (max (height l) (height r) + 1)) := by
  have e1 : ¬ (height l - height r > 1) := by omega
  have e2 : ¬ (height l - height r < -1) := by omega
  simp [rebalance, leftLeftGuard, rightRightGuard, leftRightGuard, rightLeftGuard,
    getBalance, e1, e2]

/-- The left-left case. -/
theorem rebalance_leftLeft (k : α) (lk : α) (a b : Node α) (c : Int) (r : Node α) (key : α)
    (hb : height (Node.mk lk a b c) - height r > 1) (hk : key < lk) :
    rebalance k (.mk lk a b c) r key =
      rightRotate (.mk k (.mk lk a b c) r (max (height (Node.mk lk a b c)) (height r) + 1)) := by
  simp [rebalance, leftLeftGuard, getBalance, hb, hk, keyOf]

/-- The left-right case. -/
theorem rebalance_leftRight (k : α) (lk : α) (a b : Node α) (c : Int) (r : Node α) (key : α)
    (hb : height (Node.mk lk a b c) - height r > 1) (hk : lk < key) :
    rebalance k (.mk lk a b c) r key =
      match leftRotate (.mk lk a b c) with
      | none => none
      | some l1 =>
        rightRotate (.mk k l1 r (max (height (Node.mk lk a b c)) (height r) + 1)) := by
  have e2 : ¬ (height (Node.mk lk a b c) - height r < -1) := by omega
  simp [rebalance, leftLeftGuard, rightRightGuard, leftRightGuard,
    getBalance, hb, hk, keyOf, not_lt_of_gt hk, e2]

/-- The tie on the left: the balance factor exceeds 1 and the key equals the
key of the left child; no case fires. -/
theorem rebalance_leftTie (k : α) (lk : α) (a b : Node α) (c : Int) (r : Node α)
    (hb : height (Node.mk lk a b c) - height r > 1) :
    rebalance k (.mk lk a b c) r lk =
      some (.mk k (.mk lk a b c) r (max (height (Node.mk lk a b c)) (height r) + 1)) := by
  have e2 : ¬ (height (Node.mk lk a b c) - height r < -1) := by omega
  simp [rebalance, leftLeftGuard, rightRightGuard, leftRightGuard, rightLeftGuard,
    getBalance, hb, keyOf, e2]

/-- The right-right case. -/
theorem rebalance_rightRight (k : α) (l : Node α) (rk : α) (a b : Node α) (c : Int) (key : α)
    (hb : height l - height (Node.mk rk a b c) < -1) (hk : rk < key) :
    rebalance k l (.mk rk a b c) key =
      leftRotate (.mk k l (.mk rk a b c) (max (height l) (height (Node.mk rk a b c)) + 1)) := by
  have e1 : ¬ (height l - height (Node.mk rk a b c) > 1) := by omega
  simp [rebalance, leftLeftGuard, rightRightGuard, getBalance, hb, hk, keyOf, e1]

/-- The right-left case. -/
theorem rebalance_rightLeft (k : α) (l : Node α) (rk : α) (a b : Node α) (c : Int) (key : α)
    (hb : height l - height (Node.mk rk a b c) < -1) (hk : key < rk) :
    rebalance k l (.mk rk a b c) key =
      match rightRotate (.mk rk a b c) with
      | none => none
      | some r1 =>
        leftRotate (.mk k l r1 (max (height l) (height (Node.mk rk a b c)) + 1)) := by
  have e1 : ¬ (height l - height (Node.mk rk a b c) > 1) := by omega
  simp [rebalance, leftLeftGuard, rightRightGuard, leftRightGuard, rightLeftGuard,
    getBalance, hb, hk, keyOf, not_lt_of_gt hk, e1]

/-- The tie on the right: the balance factor is below -1 and the key equals
the key of the right child; no case fires. -/
theorem rebalance_rightTie (k : α) (l : Node α) (rk : α) (a b : Node α) (c : Int)
    (hb : height l - height (Node.mk rk a b c) < -1) :
    rebalance k l (.mk rk a b c) rk =
      some (.mk k l (.mk rk a b c) (max (height l) (height (Node.mk rk a b c)) + 1)) := by
  have e1 : ¬ (height l - height (Node.mk rk a b c) > 1) := by omega
  simp [rebalance, leftLeftGuard, rightRightGuard, leftRightGuard, rightLeftGuard,
    getBalance, hb, keyOf, e1]

end Order

end AvlTree

namespace AvlTree

variable {α : Type}

/-! ## Height correctness is kept by every step of `insert` -/

theorem heightOK_mk_max {k : α} {l r : Node α} (hl : HeightOK l) (hr : HeightOK r) :
    HeightOK (.mk k l r (max (height l) (height r) + 1)) := by
  refine ⟨?_, hl, hr⟩
  rw [max_eq]
  omega

theorem heightOK_rightRotate {k : α} {l r : Node α} {c : Int} {t1 : Node α}
    (hl : HeightOK l) (hr : HeightOK r) (h : rightRotate (.mk k l r c) = some t1) :
    HeightOK t1 := by
  obtain ⟨ky, kx, a, b, c1, hx, hy, e, rfl⟩ := rightRotate_eq_some h
  cases e
  exact heightOK_mk_max hl.2.1 (heightOK_mk_max hl.2.2 hr)

theorem heightOK_leftRotate {k : α} {l r : Node α} {c : Int} {t1 : Node α}
    (hl : HeightOK l) (hr : HeightOK r) (h : leftRotate (.mk k l r c) = some t1) :
    HeightOK t1 := by
  obtain ⟨kx, ky, a, b, c1, hx, hy, e, rfl⟩ := leftRotate_eq_some h
  cases e
  exact heightOK_mk_max (heightOK_mk_max hl hr.2.1) hr.2.2

theorem heightOK_of_rightRotate_child {t t1 : Node α} (ht : HeightOK t)
    (h : rightRotate t = some t1) : HeightOK t1 := by
  cases t with
  | null => simp [rightRotate] at h
  | mk k l r c => exact heightOK_rightRotate ht.2.1 ht.2.2 h

theorem heightOK_of_leftRotate_child {t t1 : Node α} (ht : HeightOK t)
    (h : leftRotate t = some t1) : HeightOK t1 := by
  cases t with
  | null => simp [leftRotate] at h
  | mk k l r c => exact heightOK_leftRotate ht.2.1 ht.2.2 h

theorem keys_perm_left {k : α} {l l1 r : Node α} {c c1 : Int}
    (h : (keys l1).Perm (keys l)) :
    (keys (Node.mk k l1 r c1)).Perm (keys (Node.mk k l r c)) := by
  simp only [keys_mk]
  exact List.Perm.cons k (List.Perm.append_right _ h)

theorem keys_perm_right {k : α} {l r r1 : Node α} {c c1 : Int}
    (h : (keys r1).Perm (keys r)) :
    (keys (Node.mk k l r1 c1)).Perm (keys (Node.mk k l r c)) := by
  simp only [keys_mk]
  exact List.Perm.cons k (List.Perm.append_left _ h)

section Order

variable [LinearOrder α]

theorem heightOK_rebalance {k : α} {l r : Node α} {key : α} {t1 : Node α}
    (hl : HeightOK l) (hr : HeightOK r) (h : rebalance k l r key = some t1) :
    HeightOK t1 := by
  rcases rebalance_cases h with rfl | h | h | ⟨l1, h1, h2⟩ | ⟨r1, h1, h2⟩
  · exact heightOK_mk_max hl hr
  · exact heightOK_rightRotate hl hr h
  · exact heightOK_leftRotate hl hr h
  · exact heightOK_rightRotate (heightOK_of_leftRotate_child hl h1) hr h2
  · exact heightOK_leftRotate hl (heightOK_of_rightRotate_child hr h1) h2

theorem heightOK_insert {t : Node α} {key : α} {t1 : Node α}
    (ht : HeightOK t) (h : insert t key = some t1) : HeightOK t1 := by
  induction t generalizing t1 with
  | null =>
    simp only [insert, Option.some.injEq] at h
    subst h
    simp [newNode, HeightOK, height]
  | mk k l r c ihl ihr =>
    simp only [insert] at h
    split at h
    · split at h
      · exact absurd h (by simp)
      · rename_i l1 hl1
        exact heightOK_rebalance (ihl ht.2.1 hl1) ht.2.2 h
    · split at h
      · exact absurd h (by simp)
      · rename_i r1 hr1
        exact heightOK_rebalance ht.2.1 (ihr ht.2.2 hr1) h

theorem heightOK_insertAll {ks : List α} {t t1 : Node α}
    (ht : HeightOK t) (h : insertAll t ks = some t1) : HeightOK t1 := by
  induction ks generalizing t with
  | nil =>
    simp only [insertAll, Option.some.injEq] at h
    exact h ▸ ht
  | cons key rest ih =>
    simp only [insertAll] at h
    split at h
    · exact absurd h (by simp)
    · rename_i t2 h2
      exact ih (heightOK_insert ht h2) h

/-! ## The keys of the tree: every step of `insert` permutes them -/

theorem keys_rightRotate {t t1 : Node α} (h : rightRotate t = some t1) :
    (keys t1).Perm (keys t) := by
  obtain ⟨ky, kx, a, b, c1, hx, hy, rfl, rfl⟩ := rightRotate_eq_some h
  simp only [keys_mk]
  rw [List.perm_iff_count]
  intro x
  simp only [List.count_cons, List.count_append]
  omega

theorem keys_leftRotate {t t1 : Node α} (h : leftRotate t = some t1) :
    (keys t1).Perm (keys t) := by
  obtain ⟨kx, ky, a, b, c1, hx, hy, rfl, rfl⟩ := leftRotate_eq_some h
  simp only [keys_mk]
  rw [List.perm_iff_count]
  intro x
  simp only [List.count_cons, List.count_append]
  omega

theorem keys_rebalance {k : α} {l r : Node α} {key : α} {t1 : Node α}
    (h : rebalance k l r key = some t1) :
    (keys t1).Perm (k :: (keys l ++ keys r)) := by
  rw [← keys_mk k l r 0]
  rcases rebalance_cases h with rfl | h | h | ⟨l1, h1, h2⟩ | ⟨r1, h1, h2⟩
  · simp
  · exact (keys_rightRotate h).trans (by simp)
  · exact (keys_leftRotate h).trans (by simp)
  · exact (keys_rightRotate h2).trans (keys_perm_left (keys_leftRotate h1))
  · exact (keys_leftRotate h2).trans (keys_perm_right (keys_rightRotate h1))

theorem keys_insert {t : Node α} {key : α} {t1 : Node α} (h : insert t key = some t1) :
    (keys t1).Perm (key :: keys t) := by
  induction t generalizing t1 with
  | null =>
    simp only [insert, Option.some.injEq] at h
    subst h
    simp [newNode]
  | mk k l r c ihl ihr =>
    simp only [insert] at h
    split at h
    · split at h
      · exact absurd h (by simp)
      · rename_i l1 hl1
        refine (keys_rebalance h).trans ?_
        have := ihl hl1
        rw [List.perm_iff_count] at this ⊢
        intro x
        have := this x
        simp only [List.count_cons, List.count_append, keys_mk] at this ⊢
        omega
    · split at h
      · exact absurd h (by simp)
      · rename_i r1 hr1
        refine (keys_rebalance h).trans ?_
        have := ihr hr1
        rw [List.perm_iff_count] at this ⊢
        intro x
        have := this x
        simp only [List.count_cons, List.count_append, keys_mk] at this ⊢
        omega

theorem keys_insertAll {ks : List α} {t t1 : Node α} (h : insertAll t ks = some t1) :
    (keys t1).Perm (keys t ++ ks) := by
  induction ks generalizing t with
  | nil =>
    simp only [insertAll, Option.some.injEq] at h
    subst h
    simp
  | cons key rest ih =>
    simp only [insertAll] at h
    split at h
    · exact absurd h (by simp)
    · rename_i t2 h2
      refine (ih h).trans ?_
      have := keys_insert h2
      rw [List.perm_iff_count] at this ⊢
      intro x
      have := this x
      simp only [List.count_cons, List.count_append] at this ⊢
      omega

end Order

end AvlTree

namespace AvlTree

variable {α : Type} [LinearOrder α]

/-! ## The ordering with ties on both sides is kept by every step of `insert` -/

theorem weakBST_rightRotate {t t1 : Node α} (ht : WeakBST t)
    (h : rightRotate t = some t1) : WeakBST t1 := by
  obtain ⟨ky, kx, a, b, c1, hx, hy, rfl, rfl⟩ := rightRotate_eq_some h
  obtain ⟨h1, h2, ⟨h3, h4, ha, hb⟩, hc⟩ := ht
  simp only [keys_mk, List.mem_cons, List.mem_append] at h1
  have hxy : kx ≤ ky := h1 kx (Or.inl rfl)
  refine ⟨h3, ?_, ha, ?_, h2, hb, hc⟩
  · intro x hx1
    simp only [keys_mk, List.mem_cons, List.mem_append] at hx1
    rcases hx1 with rfl | hx1 | hx1
    · exact hxy
    · exact h4 x hx1
    · exact le_trans hxy (h2 x hx1)
  · intro x hx1
    exact h1 x (Or.inr (Or.inr hx1))

theorem weakBST_leftRotate {t t1 : Node α} (ht : WeakBST t)
    (h : leftRotate t = some t1) : WeakBST t1 := by
  obtain ⟨kx, ky, a, b, c1, hx, hy, rfl, rfl⟩ := leftRotate_eq_some h
  obtain ⟨h1, h2, ha, h3, h4, hb, hc⟩ := ht
  simp only [keys_mk, List.mem_cons, List.mem_append] at h2
  have hxy : kx ≤ ky := h2 ky (Or.inl rfl)
  refine ⟨?_, h4, ⟨h1, ?_, ha, hb⟩, hc⟩
  · intro x hx1
    simp only [keys_mk, List.mem_cons, List.mem_append] at hx1
    rcases hx1 with rfl | hx1 | hx1
    · exact hxy
    · exact le_trans (h1 x hx1) hxy
    · exact h3 x hx1
  · intro x hx1
    exact h2 x (Or.inr (Or.inl hx1))

theorem weakBST_replace_left {k : α} {l l1 r : Node α} {c c1 : Int}
    (ht : WeakBST (.mk k l r c)) (hl1 : WeakBST l1)
    (hk : ∀ x ∈ keys l1, x ∈ keys l) : WeakBST (.mk k l1 r c1) :=
  ⟨fun x hx => ht.1 x (hk x hx), ht.2.1, hl1, ht.2.2.2⟩

theorem weakBST_replace_right {k : α} {l r r1 : Node α} {c c1 : Int}
    (ht : WeakBST (.mk k l r c)) (hr1 : WeakBST r1)
    (hk : ∀ x ∈ keys r1, x ∈ keys r) : WeakBST (.mk k l r1 c1) :=
  ⟨ht.1, fun x hx => ht.2.1 x (hk x hx), ht.2.2.1, hr1⟩

theorem weakBST_rebalance {k : α} {l r : Node α} {c : Int} {key : α} {t1 : Node α}
    (ht : WeakBST (.mk k l r c)) (h : rebalance k l r key = some t1) : WeakBST t1 := by
  have ht0 : WeakBST (.mk k l r (max (height l) (height r) + 1)) := ht
  rcases rebalance_cases h with rfl | h | h | ⟨l1, h1, h2⟩ | ⟨r1, h1, h2⟩
  · exact ht0
  · exact weakBST_rightRotate ht0 h
  · exact weakBST_leftRotate ht0 h
  · refine weakBST_rightRotate ?_ h2
    exact weakBST_replace_left ht0 (weakBST_leftRotate ht.2.2.1 h1)
      (fun x hx => (keys_leftRotate h1).mem_iff.mp hx)
  · refine weakBST_leftRotate ?_ h2
    exact weakBST_replace_right ht0 (weakBST_rightRotate ht.2.2.2 h1)
      (fun x hx => (keys_rightRotate h1).mem_iff.mp hx)

theorem weakBST_insert {t : Node α} {key : α} {t1 : Node α}
    (ht : WeakBST t) (h : insert t key = some t1) : WeakBST t1 := by
  induction t generalizing t1 with
  | null =>
    simp only [insert, Option.some.injEq] at h
    subst h
    simp [newNode, WeakBST]
  | mk k l r c ihl ihr =>
    simp only [insert] at h
    split at h
    · rename_i hlt
      split at h
      · exact absurd h (by simp)
      · rename_i l1 hl1
        refine weakBST_rebalance (c := c) ?_ h
        refine ⟨?_, ht.2.1, ihl ht.2.2.1 hl1, ht.2.2.2⟩
        intro x hx
        rcases List.mem_cons.mp ((keys_insert hl1).mem_iff.mp hx) with rfl | hx
        · exact le_of_lt hlt
        · exact ht.1 x hx
    · rename_i hlt
      split at h
      · exact absurd h (by simp)
      · rename_i r1 hr1
        refine weakBST_rebalance (c := c) ?_ h
        refine ⟨ht.1, ?_, ht.2.2.1, ihr ht.2.2.2 hr1⟩
        intro x hx
        rcases List.mem_cons.mp ((keys_insert hr1).mem_iff.mp hx) with rfl | hx
        · exact not_lt.mp hlt
        · exact ht.2.1 x hx

theorem weakBST_insertAll {ks : List α} {t t1 : Node α}
    (ht : WeakBST t) (h : insertAll t ks = some t1) : WeakBST t1 := by
  induction ks generalizing t with
  | nil =>
    simp only [insertAll, Option.some.injEq] at h
    exact h ▸ ht
  | cons key rest ih =>
    simp only [insertAll] at h
    split at h
    · exact absurd h (by simp)
    · rename_i t2 h2
      exact ih (weakBST_insert ht h2) h

end AvlTree

namespace AvlTree

variable {α : Type} [LinearOrder α]

/-! ## `insert` on a tree with correct heights that is balanced -/


/-- On a balanced tree with correct heights `insert` returns a node: its
height is not below the height before, and the child on the side of the
inserted key is present. -/
theorem insert_total_aux (t : Node α) (key : α) (hH : HeightOK t) (hB : Balanced t) :
    ∃ k1 l1 r1 c1, insert t key = some (.mk k1 l1 r1 c1) ∧ height t ≤ c1 ∧
      (key < k1 → l1 ≠ .null) ∧ (k1 < key → r1 ≠ .null) := by
  induction t with
  | null =>
    exact ⟨key, .null, .null, 1, rfl, by simp [height_null], fun h => absurd h (lt_irrefl _),
      fun h => absurd h (lt_irrefl _)⟩
  | mk k l r c ihl ihr =>
    obtain ⟨hc, hHl, hHr⟩ := hH
    obtain ⟨hb1, hb2⟩ := balanced_root hB
    have hl0 := heightOK_nonneg l hHl
    have hr0 := heightOK_nonneg r hHr
    by_cases hlt : key < k
    · obtain ⟨lk, a, b, lc, hins, hge, hla, hlb⟩ := ihl hHl hB.2.1
      simp only [insert, hlt, if_true, hins]
      by_cases hbal : lc - height r ≤ 1
      · rw [rebalance_balanced k _ r key (by simpa only [height_mk] using hbal)
          (by simp only [height_mk]; omega)]
        refine ⟨_, _, _, _, rfl, ?_, fun _ => by simp, fun h => absurd h (not_lt_of_gt hlt)⟩
        simp only [height_mk, height_null, max_eq]
        omega
      · have hbal1 : height (Node.mk lk a b lc) - height r > 1 := by
          simp only [height_mk]; omega
        rcases lt_trichotomy key lk with h1 | h1 | h1
        · rw [rebalance_leftLeft k lk a b lc r key hbal1 h1, rightRotate_mk]
          refine ⟨_, _, _, _, rfl, ?_, fun _ => hla h1, fun _ => by simp⟩
          simp only [height_mk, height_null, max_eq]
          omega
        · subst h1
          rw [rebalance_leftTie k key a b lc r hbal1]
          refine ⟨_, _, _, _, rfl, ?_, fun _ => by simp, fun h => absurd h (not_lt_of_gt hlt)⟩
          simp only [height_mk, height_null, max_eq]
          omega
        · have hbn := hlb h1
          cases b with
          | null => exact absurd rfl hbn
          | mk kb b1 b2 cb =>
            rw [rebalance_leftRight k lk a _ lc r key hbal1 h1, leftRotate_mk]
            simp only [rightRotate_mk]
            refine ⟨_, _, _, _, rfl, ?_, fun _ => by simp, fun _ => by simp⟩
            simp only [height_mk, height_null, max_eq]
            omega
    · obtain ⟨rk, a, b, rc, hins, hge, hla, hlb⟩ := ihr hHr hB.2.2
      simp only [insert, hlt, if_false, hins]
      have hkk : k ≤ key := not_lt.mp hlt
      by_cases hbal : -1 ≤ height l - rc
      · rw [rebalance_balanced k l _ key (by simp only [height_mk]; omega)
          (by simpa only [height_mk] using hbal)]
        refine ⟨_, _, _, _, rfl, ?_, fun h => absurd h hlt, fun _ => by simp⟩
        simp only [height_mk, height_null, max_eq]
        omega
      · have hbal1 : height l - height (Node.mk rk a b rc) < -1 := by
          simp only [height_mk]; omega
        rcases lt_trichotomy key rk with h1 | h1 | h1
        · have han := hla h1
          cases a with
          | null => exact absurd rfl han
          | mk ka a1 a2 ca =>
            rw [rebalance_rightLeft k l rk _ b rc key hbal1 h1, rightRotate_mk]
            simp only [leftRotate_mk]
            refine ⟨_, _, _, _, rfl, ?_, fun _ => by simp, fun _ => by simp⟩
            simp only [height_mk, height_null, max_eq]
            omega
        · subst h1
          rw [rebalance_rightTie k l key a b rc hbal1]
          refine ⟨_, _, _, _, rfl, ?_, fun h => absurd h hlt, fun _ => by simp⟩
          simp only [height_mk, height_null, max_eq]
          omega
        · rw [rebalance_rightRight k l rk a b rc key hbal1 h1, leftRotate_mk]
          refine ⟨_, _, _, _, rfl, ?_, fun _ => by simp, fun _ => hlb h1⟩
          simp only [height_mk, height_null, max_eq]
          omega

end AvlTree

namespace AvlTree

variable {α : Type} [LinearOrder α]

/-! ## `insert` of a key that is not in the tree keeps the balance -/

/-- Inserting a key that the tree does not hold, into a balanced tree with
correct heights: `insert` returns a balanced node whose height is the height
before or one more; when it is one more and the tree was not empty, the
inserted key differs from the key of the root and the child on its side is
the higher one. -/
theorem insert_fresh_aux (t : Node α) (key : α) (hH : HeightOK t) (hB : Balanced t)
    (hk : key ∉ keys t) :
    ∃ k1 l1 r1 c1, insert t key = some (.mk k1 l1 r1 c1) ∧ Balanced (.mk k1 l1 r1 c1) ∧
      (c1 = height t ∨ (c1 = height t + 1 ∧ (t = .null ∨
        (key ≠ k1 ∧ (key < k1 → height l1 = height r1 + 1) ∧
          (k1 < key → height r1 = height l1 + 1))))) := by
  induction t with
  | null =>
    refine ⟨key, .null, .null, 1, rfl, ?_, Or.inr ⟨by simp [height_null], Or.inl rfl⟩⟩
    exact balanced_mk (by simp [height_null]) (by simp [height_null]) trivial trivial
  | mk k l r c ihl ihr =>
    obtain ⟨hc, hHl, hHr⟩ := hH
    obtain ⟨hb1, hb2⟩ := balanced_root hB
    have hl0 := heightOK_nonneg l hHl
    have hr0 := heightOK_nonneg r hHr
    simp only [keys_mk, List.mem_cons, List.mem_append, not_or] at hk
    obtain ⟨hkk, hkl, hkr⟩ := hk
    by_cases hlt : key < k
    · obtain ⟨lk, a, b, lc, hins, hBl, hgrow⟩ := ihl hHl hB.2.1 hkl
      have hHl1 := heightOK_insert hHl hins
      obtain ⟨hlc, hHa, hHb⟩ := hHl1
      obtain ⟨hab1, hab2⟩ := balanced_root hBl
      have ha0 := heightOK_nonneg a hHa
      have hb0 := heightOK_nonneg b hHb
      simp only [insert, hlt, if_true, hins]
      by_cases hbal : lc - height r ≤ 1
      · rw [rebalance_balanced k _ r key (by simpa only [height_mk] using hbal)
          (by simp only [height_mk]; omega)]
        refine ⟨_, _, _, _, rfl, ?_, ?_⟩
        · exact balanced_mk (by simp only [height_mk]; omega)
            (by simp only [height_mk]; omega) hBl hB.2.2
        · simp only [height_mk, max_eq]
          by_cases hsame : Max.max lc (height r) + 1 = c
          · exact Or.inl hsame
          · refine Or.inr ⟨by omega, Or.inr ⟨hkk, fun _ => by omega,
              fun h => absurd h (not_lt_of_gt hlt)⟩⟩
      · have hbal1 : height (Node.mk lk a b lc) - height r > 1 := by
          simp only [height_mk]; omega
        have hlne : l ≠ .null := by
          rintro rfl
          simp only [height_null] at *
          omega
        have hg : key ≠ lk ∧ (key < lk → height a = height b + 1) ∧
            (lk < key → height b = height a + 1) := by
          rcases hgrow with h | ⟨_, h | h⟩
          · omega
          · exact absurd h hlne
          · exact h
        rcases lt_trichotomy key lk with h1 | h1 | h1
        · have hab := hg.2.1 h1
          rw [rebalance_leftLeft k lk a b lc r key hbal1 h1, rightRotate_mk]
          refine ⟨_, _, _, _, rfl, ?_, Or.inl ?_⟩
          · refine balanced_mk ?_ ?_ hBl.2.1 (balanced_mk ?_ ?_ hBl.2.2 hB.2.2)
            all_goals try simp only [height_mk, max_eq]
            all_goals omega
          · simp only [height_mk, max_eq]
            omega
        · exact absurd h1 hg.1
        · have hab := hg.2.2 h1
          cases b with
          | null =>
            simp only [height_null] at *
            omega
          | mk kb b1 b2 cb =>
            obtain ⟨hcb, hHb1, hHb2⟩ := hHb
            obtain ⟨hbb1, hbb2⟩ := balanced_root hBl.2.2
            rw [rebalance_leftRight k lk a _ lc r key hbal1 h1, leftRotate_mk]
            simp only [rightRotate_mk]
            simp only [height_mk] at *
            refine ⟨_, _, _, _, rfl, ?_, Or.inl ?_⟩
            · refine balanced_mk ?_ ?_ (balanced_mk ?_ ?_ hBl.2.1 hBl.2.2.2.1)
                (balanced_mk ?_ ?_ hBl.2.2.2.2 hB.2.2)
              all_goals try simp only [height_mk, max_eq]
              all_goals omega
            · simp only [height_mk, max_eq]
              omega
    · obtain ⟨rk, a, b, rc, hins, hBr, hgrow⟩ := ihr hHr hB.2.2 hkr
      have hHr1 := heightOK_insert hHr hins
      obtain ⟨hrc, hHa, hHb⟩ := hHr1
      obtain ⟨hab1, hab2⟩ := balanced_root hBr
      have ha0 := heightOK_nonneg a hHa
      have hb0 := heightOK_nonneg b hHb
      have hgt : k < key := lt_of_le_of_ne (not_lt.mp hlt) (Ne.symm hkk)
      simp only [insert, hlt, if_false, hins]
      by_cases hbal : -1 ≤ height l - rc
      · rw [rebalance_balanced k l _ key (by simp only [height_mk]; omega)
          (by simpa only [height_mk] using hbal)]
        refine ⟨_, _, _, _, rfl, ?_, ?_⟩
        · exact balanced_mk (by simp only [height_mk]; omega)
            (by simp only [height_mk]; omega) hB.2.1 hBr
        · simp only [height_mk, max_eq]
          by_cases hsame : Max.max (height l) rc + 1 = c
          · exact Or.inl hsame
          · refine Or.inr ⟨by omega, Or.inr ⟨hkk, fun h => absurd h hlt,
              fun _ => by omega⟩⟩
      · have hbal1 : height l - height (Node.mk rk a b rc) < -1 := by
          simp only [height_mk]; omega
        have hrne : r ≠ .null := by
          rintro rfl
          simp only [height_null] at *
          omega
        have hg : key ≠ rk ∧ (key < rk → height a = height b + 1) ∧
            (rk < key → height b = height a + 1) := by
          rcases hgrow with h | ⟨_, h | h⟩
          · omega
          · exact absurd h hrne
          · exact h
        rcases lt_trichotomy key rk with h1 | h1 | h1
        · have hab := hg.2.1 h1
          cases a with
          | null =>
            simp only [height_null] at *
            omega
          | mk ka a1 a2 ca =>
            obtain ⟨hca, hHa1, hHa2⟩ := hHa
            obtain ⟨haa1, haa2⟩ := balanced_root hBr.2.1
            rw [rebalance_rightLeft k l rk _ b rc key hbal1 h1, rightRotate_mk]
            simp only [leftRotate_mk]
            simp only [height_mk] at *
            refine ⟨_, _, _, _, rfl, ?_, Or.inl ?_⟩
            · refine balanced_mk ?_ ?_ (balanced_mk ?_ ?_ hB.2.1 hBr.2.1.2.1)
                (balanced_mk ?_ ?_ hBr.2.1.2.2 hBr.2.2)
              all_goals try simp only [height_mk, max_eq]
              all_goals omega
            · simp only [height_mk, max_eq]
              omega
        · exact absurd h1 hg.1
        · have hab := hg.2.2 h1
          rw [rebalance_rightRight k l rk a b rc key hbal1 h1, leftRotate_mk]
          refine ⟨_, _, _, _, rfl, ?_, Or.inl ?_⟩
          · refine balanced_mk ?_ ?_ (balanced_mk ?_ ?_ hB.2.1 hBr.2.1) hBr.2.2
            all_goals try simp only [height_mk, max_eq]
            all_goals omega
          · simp only [height_mk, max_eq]
            omega

end AvlTree

namespace AvlTree

variable {α : Type} [LinearOrder α]

/-! ## The ordering without ties, for keys that are inserted once -/

theorem isBST_of_strictBST {t : Node α} (ht : StrictBST t) : IsBST t := by
  induction t with
  | null => trivial
  | mk k l r c ihl ihr =>
    exact ⟨ht.1, fun x hx => le_of_lt (ht.2.1 x hx), ihl ht.2.2.1, ihr ht.2.2.2⟩

theorem strictBST_rightRotate {t t1 : Node α} (ht : StrictBST t)
    (h : rightRotate t = some t1) : StrictBST t1 := by
  obtain ⟨ky, kx, a, b, c1, hx, hy, rfl, rfl⟩ := rightRotate_eq_some h
  obtain ⟨h1, h2, ⟨h3, h4, ha, hb⟩, hc⟩ := ht
  simp only [keys_mk, List.mem_cons, List.mem_append] at h1
  have hxy : kx < ky := h1 kx (Or.inl rfl)
  refine ⟨h3, ?_, ha, ?_, h2, hb, hc⟩
  · intro x hx1
    simp only [keys_mk, List.mem_cons, List.mem_append] at hx1
    rcases hx1 with rfl | hx1 | hx1
    · exact hxy
    · exact h4 x hx1
    · exact lt_trans hxy (h2 x hx1)
  · intro x hx1
    exact h1 x (Or.inr (Or.inr hx1))

theorem strictBST_leftRotate {t t1 : Node α} (ht : StrictBST t)
    (h : leftRotate t = some t1) : StrictBST t1 := by
  obtain ⟨kx, ky, a, b, c1, hx, hy, rfl, rfl⟩ := leftRotate_eq_some h
  obtain ⟨h1, h2, ha, h3, h4, hb, hc⟩ := ht
  simp only [keys_mk, List.mem_cons, List.mem_append] at h2
  have hxy : kx < ky := h2 ky (Or.inl rfl)
  refine ⟨?_, h4, ⟨h1, ?_, ha, hb⟩, hc⟩
  · intro x hx1
    simp only [keys_mk, List.mem_cons, List.mem_append] at hx1
    rcases hx1 with rfl | hx1 | hx1
    · exact hxy
    · exact lt_trans (h1 x hx1) hxy
    · exact h3 x hx1
  · intro x hx1
    exact h2 x (Or.inr (Or.inl hx1))

theorem strictBST_rebalance {k : α} {l r : Node α} {c : Int} {key : α} {t1 : Node α}
    (ht : StrictBST (.mk k l r c)) (h : rebalance k l r key = some t1) : StrictBST t1 := by
  have ht0 : StrictBST (.mk k l r (max (height l) (height r) + 1)) := ht
  rcases rebalance_cases h with rfl | h | h | ⟨l1, h1, h2⟩ | ⟨r1, h1, h2⟩
  · exact ht0
  · exact strictBST_rightRotate ht0 h
  · exact strictBST_leftRotate ht0 h
  · refine strictBST_rightRotate ?_ h2
    exact ⟨fun x hx => ht.1 x ((keys_leftRotate h1).mem_iff.mp hx), ht.2.1,
      strictBST_leftRotate ht.2.2.1 h1, ht.2.2.2⟩
  · refine strictBST_leftRotate ?_ h2
    exact ⟨ht.1, fun x hx => ht.2.1 x ((keys_rightRotate h1).mem_iff.mp hx), ht.2.2.1,
      strictBST_rightRotate ht.2.2.2 h1⟩

theorem strictBST_insert {t : Node α} {key : α} {t1 : Node α}
    (ht : StrictBST t) (hk : key ∉ keys t) (h : insert t key = some t1) :
    StrictBST t1 := by
  induction t generalizing t1 with
  | null =>
    simp only [insert, Option.some.injEq] at h
    subst h
    simp [newNode, StrictBST]
  | mk k l r c ihl ihr =>
    simp only [keys_mk, List.mem_cons, List.mem_append, not_or] at hk
    obtain ⟨hkk, hkl, hkr⟩ := hk
    simp only [insert] at h
    split at h
    · rename_i hlt
      split at h
      · exact absurd h (by simp)
      · rename_i l1 hl1
        refine strictBST_rebalance (c := c) ?_ h
        refine ⟨?_, ht.2.1, ihl ht.2.2.1 hkl hl1, ht.2.2.2⟩
        intro x hx
        rcases List.mem_cons.mp ((keys_insert hl1).mem_iff.mp hx) with rfl | hx
        · exact hlt
        · exact ht.1 x hx
    · rename_i hlt
      split at h
      · exact absurd h (by simp)
      · rename_i r1 hr1
        refine strictBST_rebalance (c := c) ?_ h
        refine ⟨ht.1, ?_, ht.2.2.1, ihr ht.2.2.2 hkr hr1⟩
        intro x hx
        rcases List.mem_cons.mp ((keys_insert hr1).mem_iff.mp hx) with rfl | hx
        · exact lt_of_le_of_ne (not_lt.mp hlt) (Ne.symm hkk)
        · exact ht.2.1 x hx

/-- Keys that are pairwise distinct and not in the tree: every insertion
returns, and the tree stays balanced, with correct heights and ordered
without ties. -/
theorem insertAll_fresh_aux (ks : List α) (t : Node α) (hH : HeightOK t) (hB : Balanced t)
    (hS : StrictBST t) (hd : ks.Nodup) (hn : ∀ x ∈ ks, x ∉ keys t) :
    ∃ t1, insertAll t ks = some t1 ∧ HeightOK t1 ∧ Balanced t1 ∧ StrictBST t1 := by
  induction ks generalizing t with
  | nil => exact ⟨t, rfl, hH, hB, hS⟩
  | cons key rest ih =>
    have hkey : key ∉ keys t := hn key (List.mem_cons_self _ _)
    obtain ⟨k1, l1, r1, c1, hins, hB1, _⟩ := insert_fresh_aux t key hH hB hkey
    have hH1 := heightOK_insert hH hins
    have hS1 := strictBST_insert hS hkey hins
    obtain ⟨hkr, hdr⟩ := List.nodup_cons.mp hd
    have hn1 : ∀ x ∈ rest, x ∉ keys (Node.mk k1 l1 r1 c1) := by
      intro x hx hmem
      rcases List.mem_cons.mp ((keys_insert hins).mem_iff.mp hmem) with rfl | hm
      · exact hkr hx
      · exact hn x (List.mem_cons_of_mem _ hx) hm
    obtain ⟨t2, h2, hr⟩ := ih _ hH1 hB1 hS1 hdr hn1
    exact ⟨t2, by simp only [insertAll, hins, h2], hr⟩

end AvlTree

namespace AvlTree

variable {α : Type} [LinearOrder α]

/-! ## The properties of the specification -/

/-- C1, evaluated on the keys 10, 5, 5.  The second 5 goes to the right of the
first one; at the root the balance factor is 2 and the key equals the key of
the left child, so neither `key < node->left->key` nor
`key > node->left->key` holds, no case fires, and the root is returned with
`|height(left) - height(right)| = 2`. -/
theorem balance_lost_on_equal_key :
    insertAll (Node.null : Node Nat) [10, 5, 5] =
        some (.mk 10 (.mk 5 .null (.mk 5 .null .null 1) 2) .null 3) ∧
      getBalance (Node.mk (10 : Nat) (.mk 5 .null (.mk 5 .null .null 1) 2) .null 3) = 2 ∧
      rebalance (10 : Nat) (.mk 5 .null (.mk 5 .null .null 1) 2) .null 5 =
        some (.mk 10 (.mk 5 .null (.mk 5 .null .null 1) 2) .null 3) ∧
      ¬ Balanced (Node.mk (10 : Nat) (.mk 5 .null (.mk 5 .null .null 1) 2) .null 3) := by
  refine ⟨rfl, rfl, rfl, ?_⟩
  decide

/-- C2 as stated fails on the keys 5, 5, 7: the right-right case rotates the
root to the left, and the first 5 becomes the left child of the second 5, so
a key equal to the key of the root is in its left subtree. -/
theorem equal_key_in_left_subtree :
    insertAll (Node.null : Node Nat) [5, 5, 7] =
        some (.mk 5 (.mk 5 .null .null 1) (.mk 7 .null .null 1) 2) ∧
      ¬ IsBST (Node.mk (5 : Nat) (.mk 5 .null .null 1) (.mk 7 .null .null 1) 2) := by
  refine ⟨rfl, ?_⟩
  decide

/-- C2, amended.  For every finite sequence of keys inserted one at a time
from the empty tree: if the insertions return a tree, then at every node the
keys of the left subtree are `<=` the key of the node and the keys of the
right subtree are `>=` it; and if the keys are pairwise distinct, the
insertions do return a tree, in which at every node the keys of the left
subtree are `<` the key of the node and those of the right subtree `>=` it. -/
theorem ordering_after_insertions (ks : List α) :
    (∀ t, insertAll .null ks = some t → WeakBST t) ∧
      (ks.Nodup → ∃ t, insertAll .null ks = some t ∧ IsBST t) := by
  refine ⟨fun t h => weakBST_insertAll (t := .null) trivial h, fun hd => ?_⟩
  obtain ⟨t, ht, _, _, hS⟩ :=
    insertAll_fresh_aux ks .null trivial trivial trivial hd (fun x _ => by simp)
  exact ⟨t, ht, isBST_of_strictBST hS⟩

theorem ordering_after_insertions_witness :
    insertAll (Node.null : Node Nat) [5, 5, 7] =
        some (.mk 5 (.mk 5 .null .null 1) (.mk 7 .null .null 1) 2) ∧
      WeakBST (Node.mk (5 : Nat) (.mk 5 .null .null 1) (.mk 7 .null .null 1) 2) ∧
      ([10, 30, 20] : List Nat).Nodup ∧
      ∃ t, insertAll (Node.null : Node Nat) [10, 30, 20] = some t ∧ IsBST t :=
  ⟨rfl, (ordering_after_insertions [5, 5, 7]).1
      (.mk 5 (.mk 5 .null .null 1) (.mk 7 .null .null 1) 2) (by rfl), by decide,
    (ordering_after_insertions [10, 30, 20]).2 (by decide)⟩

/-- C3.  For every finite sequence of keys inserted one at a time from the
empty tree, when the insertions return a tree, the cached height of every node
of it is `1 + max(height(left), height(right))`, the height of an empty
subtree being 0. -/
theorem heights_correct_after_insertions (ks : List α) (t : Node α)
    (h : insertAll .null ks = some t) : HeightOK t :=
  heightOK_insertAll (t := .null) trivial h

theorem heights_correct_after_insertions_witness :
    insertAll (Node.null : Node Nat) [10, 5, 5, 7] =
        some (.mk 7 (.mk 5 (.mk 5 .null .null 1) .null 2) (.mk 10 .null .null 1) 3) ∧
      HeightOK (Node.mk (7 : Nat) (.mk 5 (.mk 5 .null .null 1) .null 2)
        (.mk 10 .null .null 1) 3) :=
  ⟨rfl, heights_correct_after_insertions [10, 5, 5, 7]
    (.mk 7 (.mk 5 (.mk 5 .null .null 1) .null 2) (.mk 10 .null .null 1) 3) (by rfl)⟩

/-- C4, evaluated on the keys 1, 1, 1, 1, 0.  The four equal keys build a
chain to the right on which no case fires.  The key 0 goes to the left of the
root; there the balance factor is `1 - 3 = -2` and `0 < node->right->key`, so
the right-left case calls `rightRotate(node->right)`, and `node->right` has no
left child: `rightRotate` reads `x->right` with `x` NULL. -/
theorem rotation_on_missing_child :
    insertAll (Node.null : Node Nat) [1, 1, 1, 1] =
        some (.mk 1 .null (.mk 1 .null (.mk 1 .null (.mk 1 .null .null 1) 2) 3) 4) ∧
      rightLeftGuard (getBalance (Node.mk (1 : Nat) (newNode 0)
          (.mk 1 .null (.mk 1 .null (.mk 1 .null .null 1) 2) 3) 4))
        (.mk 1 .null (.mk 1 .null (.mk 1 .null .null 1) 2) 3) 0 = some true ∧
      rightRotate (Node.mk (1 : Nat) .null (.mk 1 .null (.mk 1 .null .null 1) 2) 3) = none ∧
      insert (Node.mk (1 : Nat) .null
        (.mk 1 .null (.mk 1 .null (.mk 1 .null .null 1) 2) 3) 4) 0 = none ∧
      insertAll (Node.null : Node Nat) [1, 1, 1, 1, 0] = none :=
  ⟨rfl, rfl, rfl, rfl, rfl⟩

/-- C5.  For every tree that satisfies the three invariants of the data model
(BST ordering, correct cached heights, balance) and every key, `insert`
returns a tree: no rotation and no guard reads a missing child.  The proof
uses the heights and the balance only. -/
theorem insert_returns_on_wellformed (t : Node α) (key : α) (_hO : IsBST t)
    (hH : HeightOK t) (hB : Balanced t) : ∃ t1, insert t key = some t1 := by
  obtain ⟨k1, l1, r1, c1, h, _⟩ := insert_total_aux t key hH hB
  exact ⟨_, h⟩

theorem insert_returns_on_wellformed_witness :
    IsBST (Node.mk (10 : Nat) (.mk 5 .null .null 1) .null 2) ∧
      HeightOK (Node.mk (10 : Nat) (.mk 5 .null .null 1) .null 2) ∧
      Balanced (Node.mk (10 : Nat) (.mk 5 .null .null 1) .null 2) ∧
      ∃ t1, insert (Node.mk (10 : Nat) (.mk 5 .null .null 1) .null 2) 5 = some t1 :=
  ⟨by decide, by decide, by decide,
    insert_returns_on_wellformed _ 5 (by decide) (by decide) (by decide)⟩

/-- C6.  For every finite list `ks` of keys inserted in order into the empty
tree: if the keys are pairwise distinct, every insertion returns; and whenever
the insertions return a tree, `preOrder` visits as many nodes as `ks` has
keys, the keys it visits are a permutation of `ks`, and every key is visited
as many times as it occurs in `ks`. -/
theorem preOrder_visits_inserted_keys (ks : List α) :
    (ks.Nodup → ∃ t, insertAll .null ks = some t) ∧
      (∀ t, insertAll .null ks = some t →
        (preOrder t).length = ks.length ∧ ((preOrder t).map Prod.fst).Perm ks ∧
          ∀ x, ((preOrder t).map Prod.fst).count x = ks.count x) := by
  refine ⟨fun hd => ?_, fun t h => ?_⟩
  · obtain ⟨t, ht, _⟩ :=
      insertAll_fresh_aux ks .null trivial trivial trivial hd (fun x _ => by simp)
    exact ⟨t, ht⟩
  · have hp : (keys t).Perm ks := by simpa using keys_insertAll h
    exact ⟨by rw [length_preOrder, hp.length_eq], hp, fun x => hp.count_eq x⟩

theorem preOrder_visits_inserted_keys_witness :
    insertAll (Node.null : Node Nat) [3, 1, 3, 2] =
        some (.mk 3 (.mk 1 .null (.mk 2 .null .null 1) 2) (.mk 3 .null .null 1) 3) ∧
      (preOrder (Node.mk (3 : Nat) (.mk 1 .null (.mk 2 .null .null 1) 2)
        (.mk 3 .null .null 1) 3)).length = 4 ∧
      ((preOrder (Node.mk (3 : Nat) (.mk 1 .null (.mk 2 .null .null 1) 2)
        (.mk 3 .null .null 1) 3)).map Prod.fst).count 3 = 2 :=
  ⟨rfl,
    ((preOrder_visits_inserted_keys [3, 1, 3, 2]).2
      (.mk 3 (.mk 1 .null (.mk 2 .null .null 1) 2) (.mk 3 .null .null 1) 3) (by rfl)).1,
    ((preOrder_visits_inserted_keys [3, 1, 3, 2]).2
      (.mk 3 (.mk 1 .null (.mk 2 .null .null 1) 2) (.mk 3 .null .null 1) 3) (by rfl)).2.2 3⟩

end AvlTree

namespace AvlTree

variable {α : Type} [LinearOrder α]

/-- C7, evaluated on the keys 5, 5, 5, 5.  Every key goes to the right of the
keys before it and at every node the inserted key equals the key of the right
child, so no case fires: the tree is a chain of cached height 4 built from
`n = 4` insertions, and `4 > 1.44 * log2(4 + 2)`. -/
theorem height_bound_lost_on_equal_keys :
    insertAll (Node.null : Node Nat) [5, 5, 5, 5] =
        some (.mk 5 .null (.mk 5 .null (.mk 5 .null (.mk 5 .null .null 1) 2) 3) 4) ∧
      ¬ (((height (Node.mk (5 : Nat) .null
          (.mk 5 .null (.mk 5 .null (.mk 5 .null .null 1) 2) 3) 4) : Int) : ℝ) ≤
        1.44 * Real.logb 2 ((([5, 5, 5, 5] : List Nat).length : ℝ) + 2)) := by
  refine ⟨rfl, ?_⟩
  have h : Real.logb 2 ((4 : ℕ) + 2) < 25 / 9 := by
    rw [Real.logb_lt_iff_lt_rpow (by norm_num) (by norm_num)]
    have h9 : ((4 : ℕ) + 2 : ℝ) ^ (9 : ℝ) < ((2 : ℝ) ^ (25 / 9 : ℝ)) ^ (9 : ℝ) := by
      rw [← Real.rpow_mul (by norm_num)]
      norm_num
    exact (Real.rpow_lt_rpow_iff (by norm_num) (by positivity) (by norm_num)).mp h9
  simp only [height_mk, List.length_cons, List.length_nil]
  push_cast at h ⊢
  norm_num at h ⊢
  linarith

/-- C8.  For all keys `a < b < c` and each of the six orders in which they can
be inserted into the empty tree, the result is the tree with root `b` of
cached height 2, left child the leaf `a` and right child the leaf `c`, both of
cached height 1. -/
theorem three_keys_rebalanced (a b c : α) (hab : a < b) (hbc : b < c) :
    insertAll .null [a, b, c] =
        some (.mk b (.mk a .null .null 1) (.mk c .null .null 1) 2) ∧
      insertAll .null [c, a, b] =
        some (.mk b (.mk a .null .null 1) (.mk c .null .null 1) 2) ∧
      insertAll .null [a, c, b] =
        some (.mk b (.mk a .null .null 1) (.mk c .null .null 1) 2) ∧
      insertAll .null [c, b, a] =
        some (.mk b (.mk a .null .null 1) (.mk c .null .null 1) 2) ∧
      insertAll .null [b, a, c] =
        some (.mk b (.mk a .null .null 1) (.mk c .null .null 1) 2) ∧
      insertAll .null [b, c, a] =
        some (.mk b (.mk a .null .null 1) (.mk c .null .null 1) 2) := by
  have hac : a < c := lt_trans hab hbc
  refine ⟨?_, ?_, ?_, ?_, ?_, ?_⟩ <;>
  simp [insertAll, insert, newNode, rebalance, leftLeftGuard, rightRightGuard,
    leftRightGuard, rightLeftGuard, getBalance, height, max, keyOf, rightRotate,
    leftRotate, hab, hbc, hac, not_lt_of_gt hab, not_lt_of_gt hbc, not_lt_of_gt hac]

theorem three_keys_rebalanced_witness :
    (10 : Nat) < 20 ∧ (20 : Nat) < 30 ∧
      insertAll (Node.null : Node Nat) [10, 20, 30] =
        some (.mk 20 (.mk 10 .null .null 1) (.mk 30 .null .null 1) 2) ∧
      insertAll (Node.null : Node Nat) [30, 10, 20] =
        some (.mk 20 (.mk 10 .null .null 1) (.mk 30 .null .null 1) 2) ∧
      insertAll (Node.null : Node Nat) [10, 30, 20] =
        some (.mk 20 (.mk 10 .null .null 1) (.mk 30 .null .null 1) 2) :=
  ⟨by decide, by decide,
    (three_keys_rebalanced (10 : Nat) 20 30 (by decide) (by decide)).1,
    (three_keys_rebalanced (10 : Nat) 20 30 (by decide) (by decide)).2.1,
    (three_keys_rebalanced (10 : Nat) 20 30 (by decide) (by decide)).2.2.1⟩

/-- C9.  For all keys `b < a`, inserting `a` then `b` into the empty tree:
the first insertion returns the leaf `a`; in the second one `b` goes to the
left of the root, the root gets height 2 and balance factor 1, each of the
four guards is false, and the result is the root `a` of cached height 2 with
left child the leaf `b` of cached height 1 and no right child. -/
theorem two_keys_no_rotation (a b : α) (hba : b < a) :
    insert .null a = some (newNode a) ∧
      insert (newNode a) b = some (.mk a (.mk b .null .null 1) .null 2) ∧
      getBalance (Node.mk a (newNode b) .null
        (max (height (newNode b)) (height (Node.null : Node α)) + 1)) = 1 ∧
      leftLeftGuard 1 (newNode b) b = some false ∧
      rightRightGuard 1 (Node.null : Node α) b = some false ∧
      leftRightGuard 1 (newNode b) b = some false ∧
      rightLeftGuard 1 (Node.null : Node α) b = some false ∧
      insertAll .null [a, b] = some (.mk a (.mk b .null .null 1) .null 2) := by
  have e : insert (newNode a) b = some (.mk a (.mk b .null .null 1) .null 2) := by
    simp [insert, newNode, rebalance, leftLeftGuard, rightRightGuard,
      leftRightGuard, rightLeftGuard, getBalance, height, max, hba]
  refine ⟨rfl, e, ?_, ?_, ?_, ?_, ?_, ?_⟩
  · simp [getBalance, newNode, height]
  · simp [leftLeftGuard]
  · simp [rightRightGuard]
  · simp [leftRightGuard]
  · simp [rightLeftGuard]
  · have e0 : insert .null a = some (newNode a) := rfl
    simp only [insertAll, e0, e]

theorem two_keys_no_rotation_witness :
    (4 : Nat) < 5 ∧
      insert (newNode (5 : Nat)) 4 = some (.mk 5 (.mk 4 .null .null 1) .null 2) ∧
      insertAll (Node.null : Node Nat) [5, 4] = some (.mk 5 (.mk 4 .null .null 1) .null 2) :=
  ⟨by decide, (two_keys_no_rotation (5 : Nat) 4 (by decide)).2.1,
    (two_keys_no_rotation (5 : Nat) 4 (by decide)).2.2.2.2.2.2.2⟩

end AvlTree

namespace AvlTree

variable {α : Type}

/-- In the range of the type `int` the wrapped value is the value. -/
theorem wrapInt_of_range (a : Int) (h1 : INT_MIN ≤ a) (h2 : a ≤ INT_MAX) : wrapInt a = a := by
  simp only [INT_MIN, INT_MAX] at h1 h2
  unfold wrapInt
  omega

/-- C10 as stated fails where the height does not fit the type `int`: on the
node 20 with left child 10 and right child 30, the right child caching the
height `INT_MAX`, `rightRotate` stores `max(0, INT_MAX) + 1`, which wraps to
`INT_MIN`, as the height of `y`, and then `max(0, INT_MIN) + 1 = 1` as the
height of `x`; `1 + max(height(T2), height(T3))` is `2147483648`. -/
theorem rightRotate_height_wraps :
    rightRotateInt (Node.mk (20 : Nat) (.mk 10 .null .null 1)
        (.mk 30 .null .null 2147483647) 2) =
      some (.mk 10 .null (.mk 20 .null (.mk 30 .null .null 2147483647) (-2147483648)) 1) ∧
      (-2147483648 : Int) ≠
        1 + Max.max (height (Node.null : Node Nat))
          (height (Node.mk (30 : Nat) .null .null 2147483647)) := by
  refine ⟨?_, ?_⟩
  · simp [rightRotateInt, wrapInt, height, max]
  · simp [height]

/-- C10, amended.  For every node `y` with key `ky`, right subtree `T3` and
left child `x` with key `kx`, left subtree `T1` and right subtree `T2`, when
the cached heights of the subtrees are values of the type `int` with
`height(T1) <= INT_MAX - 1`, `height(T2) <= INT_MAX - 2` and
`height(T3) <= INT_MAX - 2`: `rightRotate(y)` returns `x` with left subtree
`T1` and right child `y`; `y` keeps its key and `T3` and has left subtree
`T2`; the cached height of `y` is `1 + max(height(T2), height(T3))` and that
of `x` is `1 + max(height(T1), height(y))` with the new height of `y`.  There
the rotation with the heights computed in `Int` returns the same node. -/
theorem rightRotate_effect (ky kx : α) (T1 T2 T3 : Node α) (hx hy : Int)
    (h1 : INT_MIN ≤ height T1 ∧ height T1 ≤ INT_MAX - 1)
    (h2 : INT_MIN ≤ height T2 ∧ height T2 ≤ INT_MAX - 2)
    (h3 : INT_MIN ≤ height T3 ∧ height T3 ≤ INT_MAX - 2) :
    rightRotateInt (.mk ky (.mk kx T1 T2 hx) T3 hy) =
        some (.mk kx T1 (.mk ky T2 T3 (1 + Max.max (height T2) (height T3)))
          (1 + Max.max (height T1) (1 + Max.max (height T2) (height T3)))) ∧
      rightRotate (.mk ky (.mk kx T1 T2 hx) T3 hy) =
        rightRotateInt (.mk ky (.mk kx T1 T2 hx) T3 hy) := by
  have e1 : wrapInt (max (height T2) (height T3) + 1) =
      max (height T2) (height T3) + 1 := by
    apply wrapInt_of_range
    · rw [max_eq]; simp only [INT_MIN, INT_MAX] at *; omega
    · rw [max_eq]; simp only [INT_MIN, INT_MAX] at *; omega
  have e2 : wrapInt (max (height T1) (max (height T2) (height T3) + 1) + 1) =
      max (height T1) (max (height T2) (height T3) + 1) + 1 := by
    apply wrapInt_of_range
    · rw [max_eq, max_eq]; simp only [INT_MIN, INT_MAX] at *; omega
    · rw [max_eq, max_eq]; simp only [INT_MIN, INT_MAX] at *; omega
  have e : rightRotateInt (.mk ky (.mk kx T1 T2 hx) T3 hy) =
      rightRotate (.mk ky (.mk kx T1 T2 hx) T3 hy) := by
    simp only [rightRotateInt, rightRotate, height_mk, e1, e2]
  refine ⟨?_, e.symm⟩
  rw [e, rightRotate_mk, max_eq, max_eq, add_comm (Max.max (height T2) (height T3)) 1,
    add_comm (Max.max (height T1) _) 1]

theorem rightRotate_effect_witness :
    rightRotateInt (Node.mk (30 : Nat) (.mk 20 (.mk 10 .null .null 1) .null 2) .null 3) =
      some (.mk 20 (.mk 10 .null .null 1) (.mk 30 .null .null 1) 2) :=
  (rightRotate_effect (30 : Nat) 20 (.mk 10 .null .null 1) .null .null 2 3
    (by decide) (by decide) (by decide)).1

end AvlTree

namespace AvlTree

variable {α : Type}

/-! ## The in-order key sequence -/

theorem inOrder_perm_keys [DecidableEq α] (t : Node α) : (inOrder t).Perm (keys t) := by
  induction t with
  | null => simp [inOrder]
  | mk k l r c ihl ihr =>
    simp only [inOrder, keys_mk]
    rw [List.perm_iff_count] at ihl ihr ⊢
    intro x
    have := ihl x
    have := ihr x
    simp only [List.count_cons, List.count_append]
    omega

theorem mem_inOrder (t : Node α) (x : α) : x ∈ inOrder t ↔ x ∈ keys t := by
  induction t with
  | null => simp [inOrder]
  | mk k l r c ihl ihr =>
    simp only [inOrder, keys_mk, List.mem_append, List.mem_cons, ihl, ihr]
    tauto

theorem inOrder_rightRotate (ky kx : α) (a b c : Node α) (hx hy : Int) :
    ∃ t1, rightRotate (.mk ky (.mk kx a b hx) c hy) = some t1 ∧
      inOrder t1 = inOrder (.mk ky (.mk kx a b hx) c hy) := by
  refine ⟨_, rightRotate_mk ky kx a b c hx hy, ?_⟩
  simp [inOrder]

theorem inOrder_leftRotate (kx ky : α) (a b c : Node α) (hx hy : Int) :
    ∃ t1, leftRotate (.mk kx a (.mk ky b c hy) hx) = some t1 ∧
      inOrder t1 = inOrder (.mk kx a (.mk ky b c hy) hx) := by
  refine ⟨_, leftRotate_mk kx ky a b c hx hy, ?_⟩
  simp [inOrder]

theorem sorted_inOrder_of_weakBST [LinearOrder α] (t : Node α) (ht : WeakBST t) :
    (inOrder t).Pairwise (· ≤ ·) := by
  induction t with
  | null => simp [inOrder]
  | mk k l r c ihl ihr =>
    obtain ⟨h1, h2, hl, hr⟩ := ht
    simp only [inOrder]
    rw [List.pairwise_append]
    refine ⟨ihl hl, List.pairwise_cons.mpr ⟨fun x hx => h2 x ((mem_inOrder r x).mp hx), ihr hr⟩, ?_⟩
    intro x hx y hy
    have hxk : x ≤ k := h1 x ((mem_inOrder l x).mp hx)
    rcases List.mem_cons.mp hy with rfl | hy
    · exact hxk
    · exact le_trans hxk (h2 y ((mem_inOrder r y).mp hy))

end AvlTree

namespace AvlTree

variable {α : Type}

/-- C11 as stated fails where the height does not fit the type `int`: on the
node 10 with left child 5, caching the height `INT_MAX`, and right child 20,
`leftRotate` stores `max(INT_MAX, 0) + 1`, which wraps to `INT_MIN`, as the
height of `x`, and then `max(INT_MIN, 0) + 1 = 1` as the height of `y`;
`1 + max(height(T1), height(T2))` is `2147483648`. -/
theorem leftRotate_height_wraps :
    leftRotateInt (Node.mk (10 : Nat) (.mk 5 .null .null 2147483647)
        (.mk 20 .null .null 1) 2) =
      some (.mk 20 (.mk 10 (.mk 5 .null .null 2147483647) .null (-2147483648)) .null 1) ∧
      (-2147483648 : Int) ≠
        1 + Max.max (height (Node.mk (5 : Nat) .null .null 2147483647))
          (height (Node.null : Node Nat)) := by
  refine ⟨?_, ?_⟩
  · simp [leftRotateInt, wrapInt, height, max]
  · simp [height]

/-- C11, amended.  For every node `x` with key `kx`, left subtree `T1` and
right child `y` with key `ky`, left subtree `T2` and right subtree `T3`, when
the cached heights of the subtrees are values of the type `int` with
`height(T1) <= INT_MAX - 2`, `height(T2) <= INT_MAX - 2` and
`height(T3) <= INT_MAX - 1`: `leftRotate(x)` returns `y` with right subtree
`T3` and left child `x`; `x` keeps its key and `T1` and has right subtree
`T2`; the cached height of `x` is `1 + max(height(T1), height(T2))` and that
of `y` is `1 + max(height(x), height(T3))` with the new height of `x`.  There
the rotation with the heights computed in `Int` returns the same node. -/
theorem leftRotate_effect (kx ky : α) (T1 T2 T3 : Node α) (hx hy : Int)
    (h1 : INT_MIN ≤ height T1 ∧ height T1 ≤ INT_MAX - 2)
    (h2 : INT_MIN ≤ height T2 ∧ height T2 ≤ INT_MAX - 2)
    (h3 : INT_MIN ≤ height T3 ∧ height T3 ≤ INT_MAX - 1) :
    leftRotateInt (.mk kx T1 (.mk ky T2 T3 hy) hx) =
        some (.mk ky (.mk kx T1 T2 (1 + Max.max (height T1) (height T2))) T3
          (1 + Max.max (1 + Max.max (height T1) (height T2)) (height T3))) ∧
      leftRotate (.mk kx T1 (.mk ky T2 T3 hy) hx) =
        leftRotateInt (.mk kx T1 (.mk ky T2 T3 hy) hx) := by
  have e1 : wrapInt (max (height T1) (height T2) + 1) =
      max (height T1) (height T2) + 1 := by
    apply wrapInt_of_range
    · rw [max_eq]; simp only [INT_MIN, INT_MAX] at *; omega
    · rw [max_eq]; simp only [INT_MIN, INT_MAX] at *; omega
  have e2 : wrapInt (max (max (height T1) (height T2) + 1) (height T3) + 1) =
      max (max (height T1) (height T2) + 1) (height T3) + 1 := by
    apply wrapInt_of_range
    · rw [max_eq, max_eq]; simp only [INT_MIN, INT_MAX] at *; omega
    · rw [max_eq, max_eq]; simp only [INT_MIN, INT_MAX] at *; omega
  have e : leftRotateInt (.mk kx T1 (.mk ky T2 T3 hy) hx) =
      leftRotate (.mk kx T1 (.mk ky T2 T3 hy) hx) := by
    simp only [leftRotateInt, leftRotate, height_mk, e1, e2]
  refine ⟨?_, e.symm⟩
  rw [e, leftRotate_mk, max_eq, max_eq, add_comm (Max.max (height T1) (height T2)) 1,
    add_comm (Max.max _ (height T3)) 1]

theorem leftRotate_effect_witness :
    leftRotateInt (Node.mk (10 : Nat) .null (.mk 20 .null (.mk 30 .null .null 1) 2) 3) =
      some (.mk 20 (.mk 10 .null .null 1) (.mk 30 .null .null 1) 2) :=
  (leftRotate_effect (10 : Nat) 20 .null .null (.mk 30 .null .null 1) 3 2
    (by decide) (by decide) (by decide)).1

/-- C12.  For every node `y` with a left child `x`, when the cached heights
of `y` and of `x` are correct, `leftRotate(rightRotate(y))` is `y` again, with
the same shape, keys and cached heights; and for every node `x` with a right
child `y`, when the cached heights of `x` and of `y` are correct,
`rightRotate(leftRotate(x))` is `x` again. -/
theorem rotations_mutually_inverse (k1 k2 : α) (a b c : Node α) (h1 h2 : Int) :
    (h2 = 1 + Max.max (height a) (height b) → h1 = 1 + Max.max h2 (height c) →
      (rightRotate (.mk k1 (.mk k2 a b h2) c h1)).bind leftRotate =
        some (.mk k1 (.mk k2 a b h2) c h1)) ∧
    (h2 = 1 + Max.max (height b) (height c) → h1 = 1 + Max.max (height a) h2 →
      (leftRotate (.mk k1 a (.mk k2 b c h2) h1)).bind rightRotate =
        some (.mk k1 a (.mk k2 b c h2) h1)) := by
  constructor
  · intro e2 e1
    rw [rightRotate_mk, Option.some_bind, leftRotate_mk]
    simp only [height_mk, max_eq]
    rw [e1, e2, add_comm 1, add_comm 1]
  · intro e2 e1
    rw [leftRotate_mk, Option.some_bind, rightRotate_mk]
    simp only [height_mk, max_eq]
    rw [e1, e2, add_comm 1, add_comm 1]

theorem rotations_mutually_inverse_witness :
    (rightRotate (Node.mk (20 : Nat) (.mk 10 .null .null 1) (.mk 30 .null .null 1) 2)).bind
        leftRotate = some (.mk 20 (.mk 10 .null .null 1) (.mk 30 .null .null 1) 2) ∧
      (leftRotate (Node.mk (20 : Nat) (.mk 10 .null .null 1) (.mk 30 .null .null 1) 2)).bind
        rightRotate = some (.mk 20 (.mk 10 .null .null 1) (.mk 30 .null .null 1) 2) :=
  ⟨(rotations_mutually_inverse (20 : Nat) 10 .null .null (.mk 30 .null .null 1) 2 1).1
      (by decide) (by decide),
    (rotations_mutually_inverse (20 : Nat) 30 (.mk 10 .null .null 1) .null .null 2 1).2
      (by decide) (by decide)⟩

/-- C20.  For every node `y` with a left child, `rightRotate(y)` returns a
tree with the in-order key list of `y`; for every node `x` with a right
child, `leftRotate(x)` returns a tree with the in-order key list of `x`;
whatever the keys and the cached heights are. -/
theorem rotations_keep_inOrder (k1 k2 : α) (a b c : Node α) (h1 h2 : Int) :
    (∃ t1, rightRotate (.mk k1 (.mk k2 a b h2) c h1) = some t1 ∧
      inOrder t1 = inOrder (.mk k1 (.mk k2 a b h2) c h1)) ∧
    (∃ t1, leftRotate (.mk k1 a (.mk k2 b c h2) h1) = some t1 ∧
      inOrder t1 = inOrder (.mk k1 a (.mk k2 b c h2) h1)) :=
  ⟨inOrder_rightRotate k1 k2 a b c h2 h1, inOrder_leftRotate k1 k2 a b c h1 h2⟩

end AvlTree

namespace AvlTree

variable {α : Type} [LinearOrder α]

/-! ## The rotations and the BST ordering of the data model -/

theorem isBST_rightRotate {t t1 : Node α} (ht : IsBST t)
    (h : rightRotate t = some t1) : IsBST t1 := by
  obtain ⟨ky, kx, a, b, c1, hx, hy, rfl, rfl⟩ := rightRotate_eq_some h
  obtain ⟨h1, h2, ⟨h3, h4, ha, hb⟩, hc⟩ := ht
  simp only [keys_mk, List.mem_cons, List.mem_append] at h1
  have hxy : kx < ky := h1 kx (Or.inl rfl)
  refine ⟨h3, ?_, ha, ?_, h2, hb, hc⟩
  · intro x hx1
    simp only [keys_mk, List.mem_cons, List.mem_append] at hx1
    rcases hx1 with rfl | hx1 | hx1
    · exact le_of_lt hxy
    · exact h4 x hx1
    · exact le_trans (le_of_lt hxy) (h2 x hx1)
  · intro x hx1
    exact h1 x (Or.inr (Or.inr hx1))

theorem isBST_leftRotate {kx ky : α} {a b c : Node α} {hx hy : Int} {t1 : Node α}
    (ht : IsBST (.mk kx a (.mk ky b c hy) hx)) (hne : kx ≠ ky)
    (h : leftRotate (.mk kx a (.mk ky b c hy) hx) = some t1) : IsBST t1 := by
  rw [leftRotate_mk] at h
  cases h
  obtain ⟨h1, h2, ha, h3, h4, hb, hc⟩ := ht
  simp only [keys_mk, List.mem_cons, List.mem_append] at h2
  have hxy : kx < ky := lt_of_le_of_ne (h2 ky (Or.inl rfl)) hne
  refine ⟨?_, h4, ⟨h1, ?_, ha, hb⟩, hc⟩
  · intro x hx1
    simp only [keys_mk, List.mem_cons, List.mem_append] at hx1
    rcases hx1 with rfl | hx1 | hx1
    · exact hxy
    · exact lt_trans (h1 x hx1) hxy
    · exact h3 x hx1
  · intro x hx1
    exact h2 x (Or.inr (Or.inl hx1))

theorem weakBST_of_isBST {t : Node α} (ht : IsBST t) : WeakBST t := by
  induction t with
  | null => trivial
  | mk k l r c ihl ihr =>
    exact ⟨fun x hx => le_of_lt (ht.1 x hx), ht.2.1, ihl ht.2.2.1, ihr ht.2.2.2⟩

/-- C13 as stated fails for `leftRotate` on a node whose key equals the key
of its right child: the node 5 with right child 5 satisfies the BST ordering
(the equal key is on the right), and `leftRotate` returns the node 5 with left
child 5, where the equal key is in the left subtree. -/
theorem leftRotate_moves_equal_key_left :
    IsBST (Node.mk (5 : Nat) .null (.mk 5 .null .null 1) 2) ∧
      leftRotate (Node.mk (5 : Nat) .null (.mk 5 .null .null 1) 2) =
        some (.mk 5 (.mk 5 .null .null 1) .null 2) ∧
      ¬ IsBST (Node.mk (5 : Nat) (.mk 5 .null .null 1) .null 2) := by
  refine ⟨by decide, rfl, by decide⟩

/-- C13, amended.  For every tree that satisfies the BST ordering of the data
model: `rightRotate` applied to it when its left child is present returns a
tree that satisfies the BST ordering; `leftRotate` applied to it when its
right child is present returns a tree, which satisfies the ordering with `<=`
on the left and `>=` on the right, and satisfies the BST ordering when the key
of the root differs from the key of the right child. -/
theorem rotations_keep_ordering (k1 k2 : α) (a b c : Node α) (h1 h2 : Int) :
    (IsBST (.mk k1 (.mk k2 a b h2) c h1) →
      ∃ t1, rightRotate (.mk k1 (.mk k2 a b h2) c h1) = some t1 ∧ IsBST t1) ∧
    (IsBST (.mk k1 a (.mk k2 b c h2) h1) →
      ∃ t1, leftRotate (.mk k1 a (.mk k2 b c h2) h1) = some t1 ∧ WeakBST t1 ∧
        (k1 ≠ k2 → IsBST t1)) := by
  constructor
  · intro ht
    exact ⟨_, rightRotate_mk k1 k2 a b c h2 h1,
      isBST_rightRotate ht (rightRotate_mk k1 k2 a b c h2 h1)⟩
  · intro ht
    exact ⟨_, leftRotate_mk k1 k2 a b c h1 h2,
      weakBST_leftRotate (weakBST_of_isBST ht) (leftRotate_mk k1 k2 a b c h1 h2),
      fun hne => isBST_leftRotate ht hne (leftRotate_mk k1 k2 a b c h1 h2)⟩

theorem rotations_keep_ordering_witness :
    (∃ t1, rightRotate (Node.mk (30 : Nat) (.mk 20 (.mk 10 .null .null 1) .null 2) .null 3) =
        some t1 ∧ IsBST t1) ∧
      (∃ t1, leftRotate (Node.mk (5 : Nat) .null (.mk 5 .null .null 1) 2) = some t1 ∧
        WeakBST t1 ∧ ((5 : Nat) ≠ 5 → IsBST t1)) :=
  ⟨(rotations_keep_ordering (30 : Nat) 20 (.mk 10 .null .null 1) .null .null 3 2).1
      (by decide),
    (rotations_keep_ordering (5 : Nat) 5 .null .null .null 2 1).2 (by decide)⟩

/-- C16.  For every finite sequence of pairwise distinct keys inserted one at
a time into the empty tree, every insertion returns a tree (no rotation and no
guard reads a missing child), and after each insertion, that is for every
prefix of the sequence, the tree satisfies at every node: keys of the left
subtree `<` key of the node `<` keys of the right subtree, cached height
`= 1 + max` of the heights of the children, and
`|height(left) - height(right)| <= 1`. -/
theorem avl_invariants_for_distinct_keys (ks : List α) (hd : ks.Nodup) (n : Nat) :
    ∃ t, insertAll .null (ks.take n) = some t ∧ StrictBST t ∧ HeightOK t ∧ Balanced t := by
  have hd1 : (ks.take n).Nodup := hd.sublist (List.take_sublist n ks)
  obtain ⟨t, ht, hH, hB, hS⟩ :=
    insertAll_fresh_aux (ks.take n) .null trivial trivial trivial hd1 (fun x _ => by simp)
  exact ⟨t, ht, hS, hH, hB⟩

theorem avl_invariants_for_distinct_keys_witness :
    ([10, 30, 20, 40] : List Nat).Nodup ∧
      ∃ t, insertAll (Node.null : Node Nat) (([10, 30, 20, 40] : List Nat).take 3) = some t ∧
        StrictBST t ∧ HeightOK t ∧ Balanced t :=
  ⟨by decide, avl_invariants_for_distinct_keys [10, 30, 20, 40] (by decide) 3⟩

/-- C18.  For every finite sequence of keys (duplicates permitted) inserted
one at a time into the empty tree, when the insertions return a tree, its
in-order key sequence is non-decreasing and is a permutation of the inserted
keys, and at every node the keys of the left subtree are `<=` the key of the
node and the keys of the right subtree are `>=` it. -/
theorem inOrder_sorted_after_insertions (ks : List α) (t : Node α)
    (h : insertAll .null ks = some t) :
    (inOrder t).Pairwise (· ≤ ·) ∧ (inOrder t).Perm ks ∧ WeakBST t := by
  have hw : WeakBST t := weakBST_insertAll (t := .null) trivial h
  have hp : (keys t).Perm ks := by simpa using keys_insertAll h
  exact ⟨sorted_inOrder_of_weakBST t hw, (inOrder_perm_keys t).trans hp, hw⟩

theorem inOrder_sorted_after_insertions_witness :
    insertAll (Node.null : Node Nat) [10, 5, 5, 7] =
        some (.mk 7 (.mk 5 (.mk 5 .null .null 1) .null 2) (.mk 10 .null .null 1) 3) ∧
      (inOrder (Node.mk (7 : Nat) (.mk 5 (.mk 5 .null .null 1) .null 2)
        (.mk 10 .null .null 1) 3)).Pairwise (· ≤ ·) :=
  ⟨rfl, (inOrder_sorted_after_insertions [10, 5, 5, 7]
    (.mk 7 (.mk 5 (.mk 5 .null .null 1) .null 2) (.mk 10 .null .null 1) 3) (by rfl)).1⟩

end AvlTree

namespace AvlTree

variable {α : Type}

/-! ## The number of nodes of a balanced tree -/

theorem fib_le_length_keys (t : Node α) (hH : HeightOK t) (hB : Balanced t) :
    Nat.fib ((height t).toNat + 2) ≤ (keys t).length + 1 := by
  induction t with
  | null => simp [height_null, Nat.fib]
  | mk k l r c ihl ihr =>
    obtain ⟨hc, hHl, hHr⟩ := hH
    obtain ⟨hb1, hb2⟩ := balanced_root hB
    have hl0 := heightOK_nonneg l hHl
    have hr0 := heightOK_nonneg r hHr
    have il := ihl hHl hB.2.1
    have ir := ihr hHr hB.2.2
    obtain ⟨L, hL⟩ := Int.eq_ofNat_of_zero_le hl0
    obtain ⟨R, hR⟩ := Int.eq_ofNat_of_zero_le hr0
    rw [hL] at il hb1 hb2 hc
    rw [hR] at ir hb1 hb2 hc
    simp only [Int.toNat_ofNat] at il ir
    simp only [height_mk, keys_mk, List.length_cons, List.length_append]
    by_cases hLR : R ≤ L
    · have e : c.toNat + 2 = (L + 1) + 2 := by omega
      rw [e, Nat.fib_add_two]
      have hm : Nat.fib (L + 1) ≤ Nat.fib (R + 2) := Nat.fib_mono (by omega)
      have e2 : L + 1 + 1 = L + 2 := rfl
      rw [e2]
      omega
    · have e : c.toNat + 2 = (R + 1) + 2 := by omega
      rw [e, Nat.fib_add_two]
      have hm : Nat.fib (R + 1) ≤ Nat.fib (L + 2) := Nat.fib_mono (by omega)
      have e2 : R + 1 + 1 = R + 2 := rfl
      rw [e2]
      omega

end AvlTree

namespace AvlTree

variable {α : Type} [LinearOrder α]

/-- C19.  For every sequence of `n` pairwise distinct keys inserted one at a
time into the empty tree, the insertions return a tree and the cached height
`h` of its root satisfies `Fib(h + 2) - 1 <= n`, where
`Fib(1) = Fib(2) = 1`. -/
theorem fib_height_bound_for_distinct_keys (ks : List α) (hd : ks.Nodup) :
    ∃ t, insertAll .null ks = some t ∧
      Nat.fib ((height t).toNat + 2) - 1 ≤ ks.length := by
  obtain ⟨t, ht, hH, hB, _⟩ :=
    insertAll_fresh_aux ks .null trivial trivial trivial hd (fun x _ => by simp)
  have hp : (keys t).Perm ks := by simpa using keys_insertAll ht
  have := fib_le_length_keys t hH hB
  rw [hp.length_eq] at this
  exact ⟨t, ht, by omega⟩

theorem fib_height_bound_for_distinct_keys_witness :
    ([1, 2, 3, 4] : List Nat).Nodup ∧
      ∃ t, insertAll (Node.null : Node Nat) [1, 2, 3, 4] = some t ∧
        Nat.fib ((height t).toNat + 2) - 1 ≤ ([1, 2, 3, 4] : List Nat).length :=
  ⟨by decide, fib_height_bound_for_distinct_keys [1, 2, 3, 4] (by decide)⟩

end AvlTree

namespace AvlTree

variable {α : Type} [LinearOrder α]

/-! ## The dispatch of the double rotations -/

/-- The function `insert` on a node: the recursive call re-attaches the
child on the side of the key, then steps 2 to 4 run on the node. -/
theorem insert_mk_eq (k : α) (l r : Node α) (c : Int) (key : α) (l1 r1 : Node α)
    (hrec : (if key < k then (insert l key).map (fun x => (x, r))
      else (insert r key).map (fun x => (l, x))) = some (l1, r1)) :
    insert (.mk k l r c) key = rebalance k l1 r1 key := by
  simp only [insert]
  split at hrec
  · rename_i hlt
    cases hi : insert l key with
    | none => simp [hi] at hrec
    | some x =>
      simp only [hi, Option.map_some', Option.some.injEq, Prod.mk.injEq] at hrec
      obtain ⟨rfl, rfl⟩ := hrec
      simp [hlt]
  · rename_i hlt
    cases hi : insert r key with
    | none => simp [hi] at hrec
    | some x =>
      simp only [hi, Option.map_some', Option.some.injEq, Prod.mk.injEq] at hrec
      obtain ⟨rfl, rfl⟩ := hrec
      simp [hlt]

/-- C14, evaluated on the keys 10, 5, 5.  In the third insertion the
recursive call returns the left child 5 with right child 5; at the root the
balance factor is 2 and the key 5 equals `node->left->key`, so
`key >= node->left->key` holds and the left-right guard
`key > node->left->key` is false: `insert` returns the root as it is, of
height 3, and not `rightRotate` of the root with `leftRotate(node->left)` as
left child, which is the node 5 of height 2 with children 5 and 10. -/
theorem leftRight_skipped_on_equal_key :
    insert (Node.mk (5 : Nat) .null .null 1) 5 =
        some (.mk 5 .null (.mk 5 .null .null 1) 2) ∧
      getBalance (Node.mk (10 : Nat) (.mk 5 .null (.mk 5 .null .null 1) 2) .null 3) = 2 ∧
      keyOf (Node.mk (5 : Nat) .null (.mk 5 .null .null 1) 2) = some 5 ∧
      leftRightGuard 2 (Node.mk (5 : Nat) .null (.mk 5 .null .null 1) 2) 5 = some false ∧
      insert (Node.mk (10 : Nat) (.mk 5 .null .null 1) .null 2) 5 =
        some (.mk 10 (.mk 5 .null (.mk 5 .null .null 1) 2) .null 3) ∧
      (match leftRotate (Node.mk (5 : Nat) .null (.mk 5 .null .null 1) 2) with
        | none => none
        | some l1 => rightRotate (.mk 10 l1 .null 3)) =
        some (.mk 5 (.mk 5 .null .null 1) (.mk 10 .null .null 1) 2) :=
  ⟨rfl, rfl, rfl, rfl, rfl, rfl⟩

/-- C15 as stated fails on the tie.  With the keys 5, 5, 5, in the third
insertion the recursive call returns the right child 5 with right child 5; at
the root the balance factor is -2 and the key 5 equals `node->right->key`, so
`key <= node->right->key` holds, and `insert` returns the root as it is: the
right-left guard `key < node->right->key` is false.  The right child has no
left child, so `rightRotate(node->right)` has no result there. -/
theorem rightLeft_skipped_on_equal_key :
    insert (Node.mk (5 : Nat) .null .null 1) 5 =
        some (.mk 5 .null (.mk 5 .null .null 1) 2) ∧
      getBalance (Node.mk (5 : Nat) .null (.mk 5 .null (.mk 5 .null .null 1) 2) 3) = -2 ∧
      keyOf (Node.mk (5 : Nat) .null (.mk 5 .null .null 1) 2) = some 5 ∧
      insert (Node.mk (5 : Nat) .null (.mk 5 .null .null 1) 2) 5 =
        some (.mk 5 .null (.mk 5 .null (.mk 5 .null .null 1) 2) 3) ∧
      (match rightRotate (Node.mk (5 : Nat) .null (.mk 5 .null .null 1) 2) with
        | none => none
        | some r1 => leftRotate (.mk 5 .null r1 3)) = none ∧
      insert (Node.mk (5 : Nat) .null (.mk 5 .null .null 1) 2) 5 ≠
        (match rightRotate (Node.mk (5 : Nat) .null (.mk 5 .null .null 1) 2) with
          | none => none
          | some r1 => leftRotate (.mk 5 .null r1 3)) := by
  refine ⟨rfl, rfl, rfl, rfl, rfl, ?_⟩
  decide

/-- C15, amended.  For every node `k, l, r` and key: let `l1`, `r1` be the
children after the recursive insertion; if after the height update the
balance factor of the node is `< -1` and `key < node->right->key`, then
`insert` replaces `node->right` by `rightRotate(node->right)` and returns
`leftRotate(node)`. -/
theorem rightLeft_dispatch (k : α) (l r : Node α) (c : Int) (key : α) (l1 r1 : Node α)
    (rk : α)
    (hrec : (if key < k then (insert l key).map (fun x => (x, r))
      else (insert r key).map (fun x => (l, x))) = some (l1, r1))
    (hb : getBalance (Node.mk k l1 r1 (max (height l1) (height r1) + 1)) < -1)
    (hk : keyOf r1 = some rk) (hlt : key < rk) :
    insert (.mk k l r c) key =
      match rightRotate r1 with
      | none => none
      | some r2 => leftRotate (.mk k l1 r2 (max (height l1) (height r1) + 1)) := by
  rw [insert_mk_eq k l r c key l1 r1 hrec]
  cases r1 with
  | null => simp [keyOf] at hk
  | mk rk1 a b rc =>
    simp only [keyOf, Option.some.injEq] at hk
    subst hk
    exact rebalance_rightLeft k l1 rk1 a b rc key hb hlt

theorem rightLeft_dispatch_witness :
    insert (Node.mk (10 : Nat) .null (.mk 30 .null .null 1) 2) 20 =
      some (.mk 20 (.mk 10 .null .null 1) (.mk 30 .null .null 1) 2) :=
  rightLeft_dispatch (10 : Nat) .null (.mk 30 .null .null 1) 2 20 .null
    (.mk 30 (.mk 20 .null .null 1) .null 2) 30 (by rfl) (by decide) (by rfl) (by decide)

end AvlTree

namespace AvlTree

variable {α : Type} [LinearOrder α]

/-! ## The number of rotation points of one insertion -/

theorem insert_of_insertCount {t : Node α} {key : α} {t1 : Node α} {n : Nat}
    (h : insertCount t key = some (t1, n)) : insert t key = some t1 := by
  induction t generalizing t1 n with
  | null =>
    simp only [insertCount, Option.some.injEq, Prod.mk.injEq] at h
    simp [insert, h.1]
  | mk k l r c ihl ihr =>
    simp only [insertCount] at h
    simp only [insert]
    split at h
    · rename_i hlt
      simp only [hlt, if_true]
      split at h
      · exact absurd h (by simp)
      · rename_i l1 m hl1
        rw [ihl hl1]
        split at h
        · exact absurd h (by simp)
        · rename_i T hT
          simp only [Option.some.injEq, Prod.mk.injEq] at h
          simp [hT, h.1]
    · rename_i hlt
      simp only [hlt, if_false]
      split at h
      · exact absurd h (by simp)
      · rename_i r1 m hr1
        rw [ihr hr1]
        split at h
        · exact absurd h (by simp)
        · rename_i T hT
          simp only [Option.some.injEq, Prod.mk.injEq] at h
          simp [hT, h.1]

/-- No case fires when the balance factor is within `[-1, 1]`. -/
theorem caseFires_balanced (k : α) (l r : Node α) (key : α)
    (h1 : height l - height r ≤ 1) (h2 : -1 ≤ height l - height r) :
    caseFires k l r key = false := by
  have e1 : ¬ (height l - height r > 1) := by omega
  have e2 : ¬ (height l - height r < -1) := by omega
  simp [caseFires, leftLeftGuard, rightRightGuard, leftRightGuard, rightLeftGuard,
    getBalance, e1, e2]

end AvlTree

namespace AvlTree

variable {α : Type} [LinearOrder α]

/-- Inserting a key that the tree does not hold, into a balanced tree with
correct heights: a case fires at one node of the insertion path at most, and
when a case fires the tree that `insert` returns has the height of the tree
before. -/
theorem insertCount_fresh_aux (t : Node α) (key : α) (hH : HeightOK t) (hB : Balanced t)
    (hk : key ∉ keys t) :
    ∃ t1 n, insertCount t key = some (t1, n) ∧ n ≤ 1 ∧ (n = 1 → height t1 = height t) := by
  induction t with
  | null => exact ⟨newNode key, 0, rfl, by omega, by omega⟩
  | mk k l r c ihl ihr =>
    obtain ⟨hc, hHl, hHr⟩ := hH
    obtain ⟨hb1, hb2⟩ := balanced_root hB
    have hl0 := heightOK_nonneg l hHl
    have hr0 := heightOK_nonneg r hHr
    simp only [keys_mk, List.mem_cons, List.mem_append, not_or] at hk
    obtain ⟨hkk, hkl, hkr⟩ := hk
    by_cases hlt : key < k
    · obtain ⟨l1, n, hcnt, hn1, hn2⟩ := ihl hHl hB.2.1 hkl
      obtain ⟨lk, a, b, lc, hins, hBl, hgrow⟩ := insert_fresh_aux l key hHl hB.2.1 hkl
      have e : l1 = .mk lk a b lc := by
        have := insert_of_insertCount hcnt
        rw [hins] at this
        exact (Option.some.inj this).symm
      subst e
      obtain ⟨hlc, hHa, hHb⟩ := heightOK_insert hHl hins
      have ha0 := heightOK_nonneg a hHa
      have hb0 := heightOK_nonneg b hHb
      simp only [height_mk] at hn2 hgrow
      simp only [insertCount, hlt, if_true, hcnt]
      by_cases hbal : lc - height r ≤ 1
      · rw [rebalance_balanced k _ r key (by simpa only [height_mk] using hbal)
          (by simp only [height_mk]; omega),
          caseFires_balanced k _ r key (by simpa only [height_mk] using hbal)
          (by simp only [height_mk]; omega)]
        refine ⟨_, n, rfl, hn1, fun h1 => ?_⟩
        have := hn2 h1
        simp only [height_mk, max_eq]
        omega
      · have hbal1 : height (Node.mk lk a b lc) - height r > 1 := by
          simp only [height_mk]; omega
        have hlne : l ≠ .null := by
          rintro rfl
          simp only [height_null] at *
          omega
        have hg : key ≠ lk ∧ (key < lk → height a = height b + 1) ∧
            (lk < key → height b = height a + 1) := by
          rcases hgrow with h | ⟨_, h | h⟩
          · omega
          · exact absurd h hlne
          · exact h
        have hn0 : n = 0 := by
          by_contra hne
          have := hn2 (by omega)
          omega
        subst hn0
        rcases lt_trichotomy key lk with h1 | h1 | h1
        · have hab := hg.2.1 h1
          rw [rebalance_leftLeft k lk a b lc r key hbal1 h1, rightRotate_mk]
          refine ⟨_, _, rfl, by split <;> omega, fun _ => ?_⟩
          simp only [height_mk, max_eq]
          omega
        · exact absurd h1 hg.1
        · have hab := hg.2.2 h1
          cases b with
          | null =>
            simp only [height_null] at *
            omega
          | mk kb b1 b2 cb =>
            obtain ⟨hcb, hHb1, hHb2⟩ := hHb
            rw [rebalance_leftRight k lk a _ lc r key hbal1 h1, leftRotate_mk]
            simp only [rightRotate_mk]
            simp only [height_mk] at *
            refine ⟨_, _, rfl, by split <;> omega, fun _ => ?_⟩
            simp only [height_mk, max_eq]
            omega
    · obtain ⟨r1, n, hcnt, hn1, hn2⟩ := ihr hHr hB.2.2 hkr
      obtain ⟨rk, a, b, rc, hins, hBr, hgrow⟩ := insert_fresh_aux r key hHr hB.2.2 hkr
      have e : r1 = .mk rk a b rc := by
        have := insert_of_insertCount hcnt
        rw [hins] at this
        exact (Option.some.inj this).symm
      subst e
      obtain ⟨hrc, hHa, hHb⟩ := heightOK_insert hHr hins
      have ha0 := heightOK_nonneg a hHa
      have hb0 := heightOK_nonneg b hHb
      simp only [height_mk] at hn2 hgrow
      simp only [insertCount, hlt, if_false, hcnt]
      by_cases hbal : -1 ≤ height l - rc
      · rw [rebalance_balanced k l _ key (by simp only [height_mk]; omega)
          (by simpa only [height_mk] using hbal),
          caseFires_balanced k l _ key (by simp only [height_mk]; omega)
          (by simpa only [height_mk] using hbal)]
        refine ⟨_, n, rfl, hn1, fun h1 => ?_⟩
        have := hn2 h1
        simp only [height_mk, max_eq]
        omega
      · have hbal1 : height l - height (Node.mk rk a b rc) < -1 := by
          simp only [height_mk]; omega
        have hrne : r ≠ .null := by
          rintro rfl
          simp only [height_null] at *
          omega
        have hg : key ≠ rk ∧ (key < rk → height a = height b + 1) ∧
            (rk < key → height b = height a + 1) := by
          rcases hgrow with h | ⟨_, h | h⟩
          · omega
          · exact absurd h hrne
          · exact h
        have hn0 : n = 0 := by
          by_contra hne
          have := hn2 (by omega)
          omega
        subst hn0
        rcases lt_trichotomy key rk with h1 | h1 | h1
        · have hab := hg.2.1 h1
          cases a with
          | null =>
            simp only [height_null] at *
            omega
          | mk ka a1 a2 ca =>
            obtain ⟨hca, hHa1, hHa2⟩ := hHa
            rw [rebalance_rightLeft k l rk _ b rc key hbal1 h1, rightRotate_mk]
            simp only [leftRotate_mk]
            simp only [height_mk] at *
            refine ⟨_, _, rfl, by split <;> omega, fun _ => ?_⟩
            simp only [height_mk, max_eq]
            omega
        · exact absurd h1 hg.1
        · have hab := hg.2.2 h1
          rw [rebalance_rightRight k l rk a b rc key hbal1 h1, leftRotate_mk]
          refine ⟨_, _, rfl, by split <;> omega, fun _ => ?_⟩
          simp only [height_mk, max_eq]
          omega

end AvlTree

namespace AvlTree

variable {α : Type} [LinearOrder α]

/-- C17.  For every tree that satisfies the three invariants and every key
that is not in it, `insert` returns a tree, one of the four cases fires at one
node of the insertion path at most, and when a case fires the returned tree
has the height that the tree had before the insertion; the returned tree is
balanced at every node.  The same holds for every subtree on the insertion
path, so the subtree returned at the node where a case fires has the height
it had before.  The proof uses the heights and the balance only. -/
theorem one_rotation_point (t : Node α) (key : α) (_hO : IsBST t) (hH : HeightOK t)
    (hB : Balanced t) (hk : key ∉ keys t) :
    ∃ t1 n, insertCount t key = some (t1, n) ∧ insert t key = some t1 ∧ n ≤ 1 ∧
      (n = 1 → height t1 = height t) ∧ Balanced t1 := by
  obtain ⟨t1, n, hcnt, hn1, hn2⟩ := insertCount_fresh_aux t key hH hB hk
  obtain ⟨k1, l1, r1, c1, hins, hB1, _⟩ := insert_fresh_aux t key hH hB hk
  have h1 := insert_of_insertCount hcnt
  have e : Node.mk k1 l1 r1 c1 = t1 := by
    rw [hins] at h1
    exact Option.some.inj h1
  exact ⟨t1, n, hcnt, h1, hn1, hn2, e ▸ hB1⟩

theorem one_rotation_point_witness :
    IsBST (Node.mk (20 : Nat) (.mk 10 .null .null 1) .null 2) ∧
      HeightOK (Node.mk (20 : Nat) (.mk 10 .null .null 1) .null 2) ∧
      Balanced (Node.mk (20 : Nat) (.mk 10 .null .null 1) .null 2) ∧
      (5 : Nat) ∉ keys (Node.mk (20 : Nat) (.mk 10 .null .null 1) .null 2) ∧
      insertCount (Node.mk (20 : Nat) (.mk 10 .null .null 1) .null 2) 5 =
        some (.mk 10 (.mk 5 .null .null 1) (.mk 20 .null .null 1) 2, 1) ∧
      ∃ t1 n, insertCount (Node.mk (20 : Nat) (.mk 10 .null .null 1) .null 2) 5 =
          some (t1, n) ∧
        insert (Node.mk (20 : Nat) (.mk 10 .null .null 1) .null 2) 5 = some t1 ∧ n ≤ 1 ∧
        (n = 1 → height t1 = height (Node.mk (20 : Nat) (.mk 10 .null .null 1) .null 2)) ∧
        Balanced t1 :=
  ⟨by decide, by decide, by decide, by decide, rfl,
    one_rotation_point _ 5 (by decide) (by decide) (by decide) (by decide)⟩

end AvlTree
